import Mathlib

set_option maxRecDepth 100000

/-
Shallow embedding of the zwift-voice-control core:
* the voice-recognition module (Levenshtein fuzzy matching, spoken-number
  normalization, the priority-ordered command matcher, the confidence gate,
  and the bounded restart logic), and
* the keyboard dispatcher (rate limiting, FIFO queue, bounded history,
  test mode).
Text is modelled as `List Char` (ASCII fragment); JS numbers used for the
confidence thresholds are modelled as `ℚ`, and timestamps as `ℕ`
(milliseconds).
-/

/-- JS word character `[A-Za-z0-9_]`: the class the `\b` boundary used by
`convertSpokenNumbers`'s regexes is defined against. -/
def isWordChar (c : Char) : Bool := c.isAlpha || c.isDigit || c = '_'

/-- ASCII lower-casing, as `String.prototype.toLowerCase` acts on the ASCII
range that transcripts and registered phrases use. -/
def jsLowerChar (c : Char) : Char :=
  if 65 ≤ c.toNat ∧ c.toNat ≤ 90 then Char.ofNat (c.toNat + 32) else c

/-- `text.toLowerCase()` on the character list. -/
def jsLower (s : List Char) : List Char := s.map jsLowerChar

/-- ASCII whitespace removed by `String.prototype.trim`. -/
def isWsChar (c : Char) : Bool :=
  c = ' ' || c = '\t' || c = '\n' || c = '\r' || c = '\x0b' || c = '\x0c'

/-- `text.trim()`: drop whitespace from both ends. -/
def trimChars (s : List Char) : List Char :=
  ((s.dropWhile isWsChar).reverse.dropWhile isWsChar).reverse

/-- Inner-cell recursion for one row of the `levenshteinDistance` matrix:
`matrix[i][j] = b[i-1] == a[j-1] ? matrix[i-1][j-1]
             : min(matrix[i-1][j-1]+1, matrix[i][j-1]+1, matrix[i-1][j]+1)`,
with `diag = matrix[i-1][j-1]`, `left = matrix[i][j-1]`, `prev` the tail of
row `i-1` starting at column `j`. -/
def levRowGo (bc : Char) : List Char → Nat → Nat → List Nat → List Nat
  | [], _, _, _ => []
  | ac :: rest, diag, left, prev =>
    match prev with
    | [] => []
    | up :: prevRest =>
      let cur := if bc = ac then diag else min (min (diag + 1) (left + 1)) (up + 1)
      cur :: levRowGo bc rest up cur prevRest

/-- Row `i` of the matrix from row `i-1`; the border cell is `matrix[i][0] = i`. -/
def levNextRow (bc : Char) (la : List Char) (prev : List Nat) : List Nat :=
  match prev with
  | [] => []
  | p0 :: rest => (p0 + 1) :: levRowGo bc la p0 (p0 + 1) rest

/-- `levenshteinDistance(a, b)` from the voice module: the dynamic-programming
edit distance, returning `matrix[b.length][a.length]`. -/
def levenshteinDistance (a b : String) : Nat :=
  let la := a.data
  let row0 := List.range (la.length + 1)
  (b.data.foldl (fun prev bc => levNextRow bc la prev) row0).getLastD 0

/-- Prefix test used to model the regex engine finding a pattern at the
current scan position. -/
def startsWith : List Char → List Char → Bool
  | _, [] => true
  | [], _ :: _ => false
  | c :: cs, wc :: wrest => c = wc && startsWith cs wrest

/-- `transcript.includes(phrase)`: substring containment. -/
def jsIncludes : List Char → List Char → Bool
  | [], sub => sub.isEmpty
  | c :: rest, sub => startsWith (c :: rest) sub || jsIncludes rest sub

/-- The `\b` boundary after a match: the next character (if any) is not a
word character. -/
def noWordHead : List Char → Bool
  | [] => true
  | c :: _ => !isWordChar c

/-- One global replacement pass `result.replace(/\bword\b/gi, digit)`.
The scanner walks the string left to right carrying whether the previous
character of the string being scanned is a word character (`prevW`); a match
requires a boundary on both sides; after a match the engine resumes right
after the matched occurrence, whose last character supplies the new `prevW`. -/
def replWordGo (w d : List Char) (prevW : Bool) : List Char → List Char
  | [] => []
  | c :: rest =>
    if prevW = false ∧ w ≠ [] ∧ startsWith (c :: rest) w = true ∧
       noWordHead (List.drop w.length (c :: rest)) = true
    then d ++ replWordGo w d (isWordChar (w.getLastD c)) (List.drop w.length (c :: rest))
    else c :: replWordGo w d (isWordChar c) rest
  termination_by s => s.length
  decreasing_by
    · simp only [List.length_drop, List.length_cons]
      have hw : 1 ≤ w.length := by
        rcases w with _ | ⟨x, xs⟩
        · simp at *
        · simp
      omega
    · simp

/-- `result.replace(new RegExp(..word.., 'gi'), digit)` for one table entry. -/
def replaceWord (w d s : List Char) : List Char := replWordGo w d false s

/-- The `numberMap` table of `convertSpokenNumbers`, in `Object.entries`
insertion order. -/
def numberEntries : List (List Char × List Char) :=
  [("zero".data, "0".data), ("one".data, "1".data), ("two".data, "2".data),
   ("three".data, "3".data), ("four".data, "4".data), ("five".data, "5".data),
   ("six".data, "6".data), ("seven".data, "7".data), ("eight".data, "8".data),
   ("nine".data, "9".data), ("ten".data, "10".data)]

/-- `convertSpokenNumbers(text)`: lower-case, then run every whole-word
spoken-number replacement in table order. -/
def convertSpokenNumbersList (s : List Char) : List Char :=
  numberEntries.foldl (fun acc wd => replaceWord wd.1 wd.2 acc) (jsLower s)

/-- String-level `convertSpokenNumbers`. -/
def convertSpokenNumbers (s : String) : String :=
  ⟨convertSpokenNumbersList s.data⟩

/-- The normalization applied to a transcript before matching, from
`_handleResult` and `simulateCommand`:
`convertSpokenNumbers(bestTranscript.toLowerCase().trim())`. -/
def normalizeTranscript (s : String) : String :=
  ⟨convertSpokenNumbersList (trimChars (jsLower s.data))⟩

/-- One entry of the `VOICE_COMMANDS` table. -/
structure Command where
  phrases : List String
  key : String
  keyCode : Nat
  description : String
  priority : Nat
deriving DecidableEq

/-- The `VOICE_COMMANDS` registry, in source order. -/
def VOICE_COMMANDS : List Command :=
  [ ⟨["elbow flick", "elbow", "signal", "flick", "elbow flex"], "4", 21,
      "Elbow flick signal", 1⟩,
    ⟨["power up", "use power up", "activate", "powerup", "power-up", "use powerup", "boost"],
      "space", 49, "Use power-up", 1⟩,
    ⟨["turn left", "left", "go left", "take left"], "left", 123, "Turn left", 1⟩,
    ⟨["turn right", "right", "go right", "take right"], "right", 124, "Turn right", 1⟩,
    ⟨["go straight", "straight", "straight on", "straight ahead"], "up", 126,
      "Go straight", 1⟩,
    ⟨["camera 1", "camera one", "view 1", "view one"], "1", 18, "Camera view 1", 1⟩,
    ⟨["camera 2", "camera two", "view 2", "view two"], "2", 19, "Camera view 2", 1⟩,
    ⟨["camera 3", "camera three", "view 3", "view three", "behind view"], "3", 20,
      "Camera view 3 (behind)", 1⟩,
    ⟨["camera 4", "camera four", "view 4", "view four"], "5", 23, "Camera view 4", 1⟩,
    ⟨["camera 5", "camera five", "view 5", "view five"], "6", 22, "Camera view 5", 1⟩,
    ⟨["camera 6", "camera six", "view 6", "view six"], "7", 26, "Camera view 6", 1⟩,
    ⟨["camera 7", "camera seven", "view 7", "view seven"], "8", 28, "Camera view 7", 1⟩,
    ⟨["camera 8", "camera eight", "view 8", "view eight"], "9", 25, "Camera view 8", 1⟩,
    ⟨["camera 9", "camera nine", "view 9", "view nine", "drone view", "drone"], "0", 29,
      "Camera view 9 (drone)", 1⟩,
    ⟨["u turn", "u-turn", "turn around", "reverse", "go back", "uturn"], "down", 125,
      "U-Turn", 2⟩,
    ⟨["screenshot", "take picture", "capture", "photo", "take photo", "snap"], "f10", 109,
      "Take screenshot", 2⟩,
    ⟨["wave", "say hi", "hello", "hi there"], "5", 23, "Wave", 2⟩,
    ⟨["ride on", "rideon", "ride-on", "thumbs up"], "6", 22, "Ride On!", 2⟩,
    ⟨["hammer", "hammer time", "hammertime"], "7", 26, "Hammer time", 2⟩,
    ⟨["toast", "cheers", "drink"], "8", 28, "Toast", 2⟩,
    ⟨["nice", "nice one", "good job"], "9", 25, "Nice!", 2⟩,
    ⟨["bring it", "bring it on", "lets go", "let\x27s go"], "0", 29, "Bring it!", 2⟩,
    ⟨["skip", "skip block", "next block", "skip workout"], "tab", 48,
      "Skip workout block", 2⟩,
    ⟨["easier", "bias down", "reduce", "lower"], "pagedown", 121,
      "Decrease difficulty", 2⟩,
    ⟨["harder", "bias up", "increase", "raise"], "pageup", 116,
      "Increase difficulty", 2⟩,
    ⟨["menu", "show menu", "customize", "change gear", "garage", "pause"], "escape", 53,
      "Open menu", 3⟩,
    ⟨["panoramic view", "wide view", "panoramic", "pan view"], "0", 29,
      "Panoramic view", 3⟩,
    ⟨["graph", "show graph", "toggle graph", "stats"], "g", 5, "Toggle graph", 3⟩,
    ⟨["hide", "hide ui", "clean view", "minimal"], "h", 4, "Hide UI", 3⟩,
    ⟨["fan up", "increase fan", "more fan"], "pageup", 116, "Fan speed up", 3⟩,
    ⟨["fan down", "decrease fan", "less fan"], "pagedown", 121, "Fan speed down", 3⟩ ]

/-- Which branch of `_matchCommand` produced a candidate.  The source records
this only through control flow; the spec calls it `method`. -/
inductive MatchMethod
  | exact
  | substring
  | fuzzy
deriving DecidableEq

/-- The match result object `{ command, matchedPhrase, isLowConfidence, score }`
of `_matchCommand`, tagged with the producing branch. -/
structure MatchCandidate where
  command : Command
  matchedPhrase : String
  isLowConfidence : Bool
  score : Nat
  method : MatchMethod
deriving DecidableEq

/-- The recognition options relevant to matching and gating, with the
constructor defaults of the `VoiceRecognition` class. -/
structure Options where
  confidenceThreshold : ℚ
  trainerMode : Bool
  trainerModeThreshold : ℚ
  lowConfidenceThreshold : ℚ
deriving DecidableEq

/-- `{ confidenceThreshold: 0.75, trainerMode: false, trainerModeThreshold: 0.80,
lowConfidenceThreshold: 0.65 }`. -/
def defaultOptions : Options := ⟨0.75, false, 0.80, 0.65⟩

/-- `getThreshold()`: trainer mode selects the stricter threshold. -/
def getThreshold (o : Options) : ℚ :=
  if o.trainerMode then o.trainerModeThreshold else o.confidenceThreshold

/-- `maxDistance = Math.max(2, Math.floor(phrase.length * 0.3))`; for the
phrase lengths occurring in the registry the float expression agrees with the
exact `⌊3L/10⌋`. -/
def maxFuzzyDistance (p : String) : Nat := max 2 (p.length * 3 / 10)

/-- `Math.abs(transcript.length - phrase.length)` on ℕ. -/
def absDiff (a b : Nat) : Nat := max a b - min a b

/-- `score < bestScore`, where an empty best stands for `Infinity`. -/
def scoreLtBest (n : Nat) (best : Option MatchCandidate) : Bool :=
  match best with
  | none => true
  | some b => decide (n < b.score)

/-- The contains-match step of the `_matchCommand` loop body. -/
def updateSub (t : String) (low : Bool) (c : Command) (p : String)
    (best : Option MatchCandidate) : Option MatchCandidate :=
  if (jsIncludes t.data p.data || jsIncludes p.data t.data) = true then
    let score := absDiff t.length p.length
    if scoreLtBest score best then some ⟨c, p, low, score, .substring⟩ else best
  else best

/-- The fuzzy-match step of the `_matchCommand` loop body. -/
def updateFuzzy (t : String) (low : Bool) (c : Command) (p : String)
    (best : Option MatchCandidate) : Option MatchCandidate :=
  let d := levenshteinDistance t p
  if d ≤ maxFuzzyDistance p ∧ scoreLtBest d best = true
  then some ⟨c, p, low, d, .fuzzy⟩ else best

/-- Non-exact part of the loop body for one `(command, phrase)` pair:
contains match first, then fuzzy match. -/
def updatePair (t : String) (low : Bool) (c : Command) (p : String)
    (best : Option MatchCandidate) : Option MatchCandidate :=
  updateFuzzy t low c p (updateSub t low c p best)

/-- The command/phrase double loop of `_matchCommand`: an exact hit returns
immediately with score 0; otherwise the best candidate is threaded through. -/
def scanPairs (t : String) (low : Bool) :
    Option MatchCandidate → List (Command × String) → Option MatchCandidate
  | best, [] => best
  | best, (c, p) :: rest =>
    if t = p then some ⟨c, p, low, 0, .exact⟩
    else scanPairs t low (updatePair t low c p best) rest

/-- Stable insertion of a command behind every already-placed command of
priority at most its own. -/
def insertByPriority (c : Command) : List Command → List Command
  | [] => [c]
  | x :: xs =>
    if x.priority ≤ c.priority then x :: insertByPriority c xs else c :: x :: xs

/-- `[...VOICE_COMMANDS].sort((a, b) => a.priority - b.priority)`: a stable
sort of a copy of the registry by ascending priority (the ECMAScript sort is
stable, and every stable sort by the same key gives the same list; this
insertion sort is that stable sort). -/
def sortCommands (cmds : List Command) : List Command :=
  cmds.foldl (fun acc c => insertByPriority c acc) []

/-- The `(command, phrase)` pairs in the exact order the loops of
`_matchCommand` visit them. -/
def commandPairs (cmds : List Command) : List (Command × String) :=
  (sortCommands cmds).flatMap (fun c => c.phrases.map (fun p => (c, p)))

/-- `_matchCommand(transcript, confidence)` over a given registry and options:
`null` below the low-confidence floor, otherwise the scan over the sorted
pairs with `isLowConfidence = confidence < getThreshold()`. -/
def matchCommandOver (cmds : List Command) (o : Options) (t : String) (conf : ℚ) :
    Option MatchCandidate :=
  if conf < o.lowConfidenceThreshold then none
  else scanPairs t (decide (conf < getThreshold o)) none (commandPairs cmds)

/-- `_matchCommand` of the live module: fixed registry, default options. -/
def matchCommand (t : String) (conf : ℚ) : Option MatchCandidate :=
  matchCommandOver VOICE_COMMANDS defaultOptions t conf

/-- `_matchCommand` together with the registry as the call leaves it: the
source sorts a spread copy `[...VOICE_COMMANDS]` and never writes to the
array or its elements, so the registry component is returned unchanged. -/
def matchCommandFull (cmds : List Command) (o : Options) (t : String) (conf : ℚ) :
    Option MatchCandidate × List Command :=
  (matchCommandOver cmds o t conf, cmds)

/-- The three outcomes of the confidence gate as the spec names them:
`command` event = execute, `lowConfidence` event = suggest,
`noMatch` / dropped transcript = reject. -/
inductive GateOutcome
  | execute
  | suggest
  | reject
deriving DecidableEq

/-- How `_handleResult` consumes a match result: no candidate emits `noMatch`;
a low-confidence candidate emits `lowConfidence`; otherwise `command`. -/
def handleMatchOutcome (m : Option MatchCandidate) : GateOutcome :=
  match m with
  | none => .reject
  | some r => if r.isLowConfidence then .suggest else .execute

/-- The confidence gate assembled from `_matchCommand` (low-confidence floor,
`isLowConfidence` flag) and `_handleResult` (event selection): the spec's
`decide(candidate, rawConfidence)`. -/
def gateDecide (o : Options) (candidate : Option MatchCandidate) (conf : ℚ) :
    GateOutcome :=
  if conf < o.lowConfidenceThreshold then .reject
  else
    match candidate with
    | none => .reject
    | some _ => if conf < getThreshold o then .suggest else .execute

/-- The dispatcher `CONFIG` fields relevant to the core. -/
structure KConfig where
  keyPressDelay : Nat
  rateLimitMs : Nat
  maxQueueSize : Nat
  testMode : Bool
deriving DecidableEq

/-- `CONFIG = { keyPressDelay: 50, rateLimitMs: 300, maxQueueSize: 5,
testMode: false }`. -/
def defaultKConfig : KConfig := ⟨50, 300, 5, false⟩

/-- One entry of `commandQueue`: `{ key, timestamp }`. -/
structure QueuedCommand where
  key : String
  timestamp : Nat
deriving DecidableEq

/-- The result object `simulateKey` returns (fields used by the claims);
absent JS fields are modelled by `false` / `none`. -/
structure KResult where
  success : Bool
  queued : Bool
  testMode : Bool
  key : String
  error : Option String
  timestamp : Nat
deriving DecidableEq

/-- The dispatcher's mutable module state: `lastCommandTime`, `commandQueue`,
`commandHistory`. -/
structure KState where
  lastCommandTime : Nat
  commandQueue : List QueuedCommand
  commandHistory : List KResult
deriving DecidableEq

def MAX_HISTORY : Nat := 50

/-- `logCommand(result)`: unshift onto history, evict the oldest entry past
`MAX_HISTORY`. -/
def logCommand (h : List KResult) (e : KResult) : List KResult :=
  let h2 := e :: h
  if h2.length > MAX_HISTORY then h2.dropLast else h2

/-- `queueCommand(key)`: push onto the FIFO queue and report a queued result
(no history entry is written for a queued submission). -/
def queueCommand (st : KState) (key : String) (now : Nat) : KState × KResult :=
  let st2 := { st with commandQueue := st.commandQueue ++ [⟨key, now⟩] }
  (st2, { success := true, queued := true, testMode := false, key := key,
          error := none, timestamp := now })

/-- `simulateKey(key)` at instant `now`.  `execOk` is the success value the
action executor (robotjs / AppleScript) would report; the test-mode and
rate-limited paths never consult it.  The drain the execute path triggers is
modelled separately by `drainQueue`. -/
def simulateKey (cfg : KConfig) (st : KState) (key : String) (now : Nat)
    (execOk : Bool) : KState × KResult :=
  if cfg.testMode then
    let r : KResult := { success := true, queued := false, testMode := true,
                         key := key, error := none, timestamp := now }
    ({ st with commandHistory := logCommand st.commandHistory r }, r)
  else if now - st.lastCommandTime < cfg.rateLimitMs then
    if st.commandQueue.length < cfg.maxQueueSize then
      queueCommand st key now
    else
      let r : KResult := { success := false, queued := false, testMode := false,
                           key := key,
                           error := some ("Rate limit exceeded, queue full"),
                           timestamp := now }
      ({ st with commandHistory := logCommand st.commandHistory r }, r)
  else
    let r : KResult := { success := execOk, queued := false, testMode := false,
                         key := key, error := none, timestamp := now }
    ({ st with lastCommandTime := now,
               commandHistory := logCommand st.commandHistory r }, r)

/-- A burst of submissions, each with its arrival instant and executor
outcome, threaded through the dispatcher state. -/
def submitSeq (cfg : KConfig) : KState → List (String × Nat × Bool) → KState × List KResult
  | st, [] => (st, [])
  | st, (k, now, ok) :: rest =>
    let step := simulateKey cfg st k now ok
    let restRun := submitSeq cfg step.1 rest
    (restRun.1, step.2 :: restRun.2)

/-- The `processQueue` drain loop on the timeline: starting at instant `now`
with last execution at `last`, it executes the head as soon as the rate
window has elapsed (immediately if `rateLimitMs ≤ now - last`, otherwise at
`last + rateLimitMs`), updates the last-executed timestamp, and continues.
Returns the `(key, execution instant)` list and the final timestamp. -/
def drainQueue (cfg : KConfig) : List QueuedCommand → Nat → Nat → List (String × Nat) × Nat
  | [], _, last => ([], last)
  | qc :: rest, now, last =>
    let t := if cfg.rateLimitMs ≤ now - last then now else last + cfg.rateLimitMs
    let restRun := drainQueue cfg rest t t
    ((qc.key, t) :: restRun.1, restRun.2)

/-- `maxRestartAttempts = 5`, `restartDelay = 1000` from the
`VoiceRecognition` constructor. -/
def maxRestartAttempts : Nat := 5

def restartDelayMs : Nat := 1000

/-- The session-controller state driving `_attemptRestart`. -/
structure RestartState where
  restartAttempts : Nat
  isListening : Bool
  fatalError : Bool
deriving DecidableEq

/-- `_attemptRestart()`: above the cap it stops listening and emits the fatal
disconnect error (no retry is scheduled, result `none`); below it, the
attempt counter is bumped and a retry is scheduled after
`restartDelay * restartAttempts` ms. -/
def attemptRestart (s : RestartState) : RestartState × Option Nat :=
  if maxRestartAttempts ≤ s.restartAttempts then
    ({ s with isListening := false, fatalError := true }, none)
  else
    let n := s.restartAttempts + 1
    ({ s with restartAttempts := n }, some (restartDelayMs * n))

/-- `recognition.onend`: an engine end while the session still listens runs
`_attemptRestart`; otherwise it is a normal stop. -/
def onEnd (s : RestartState) : RestartState × Option Nat :=
  if s.isListening then attemptRestart s else (s, none)

/-- State after `n` consecutive unexpected engine ends, starting from a
freshly started session (`onstart` reset the counter). -/
def restartIter : Nat → RestartState
  | 0 => ⟨0, true, false⟩
  | n + 1 => (onEnd (restartIter n)).1

/-- The retry delay scheduled by the `(k+1)`-th consecutive unexpected end. -/
def nthRestartDelay (k : Nat) : Option Nat := (onEnd (restartIter k)).2

/-- Every phrase of every command of a registry. -/
def allPhrases (cmds : List Command) : List String := cmds.flatMap Command.phrases

/-- A phrase qualifies for transcript `t` at score `s` when the contains step
yields `s` or the fuzzy step accepts at distance `s`. -/
def qualifiesAt (t p : String) (s : Nat) : Prop :=
  ((jsIncludes t.data p.data || jsIncludes p.data t.data) = true ∧
    s = absDiff t.length p.length) ∨
  (levenshteinDistance t p = s ∧ s ≤ maxFuzzyDistance p)

/-- Decomposition of a string into maximal word-character runs and single
separator characters; `\b`-anchored whole-word matches are exactly the word
runs equal to the pattern. -/
def chunks : List Char → List (List Char)
  | [] => []
  | c :: rest =>
    if isWordChar c
    then (c :: rest.takeWhile isWordChar) :: chunks (rest.dropWhile isWordChar)
    else [c] :: chunks rest
  termination_by s => s.length
  decreasing_by
    · exact Nat.lt_succ_of_le (List.Sublist.length_le (List.dropWhile_sublist _))
    · simp

/-- A nonempty run of word characters. -/
def isWordRun (l : List Char) : Bool := !l.isEmpty && l.all isWordChar

/-- A single non-word character. -/
def isSepChunk (l : List Char) : Bool :=
  match l with
  | [c] => !isWordChar c
  | _ => false

/-- Well-formed chunk list: every chunk is a word run or a separator, and no
two word runs are adjacent (maximality). -/
def Chunked (L : List (List Char)) : Prop :=
  (∀ ch ∈ L, isWordRun ch = true ∨ isSepChunk ch = true) ∧
  List.Chain' (fun a b => ¬(isWordRun a = true ∧ isWordRun b = true)) L

/-- Effect of one whole-word replacement on one chunk. -/
def tokenRepl (w d ch : List Char) : List Char := if ch = w then d else ch

/-- Effect of the full replacement chain on one chunk. -/
def tokenMapAll (ch : List Char) : List Char :=
  numberEntries.foldl (fun acc wd => tokenRepl wd.1 wd.2 acc) ch

/-- Zero-cell invariant for one Levenshtein matrix row: the `k`-th cell of
`row` corresponds to the `a`-prefix `laPre ++ take k laSuf`, and a zero cell
forces that prefix to equal the already-processed `b`-prefix `consumed`. -/
def RowZeros (consumed : List Char) : List Char → List Char → List Nat → Prop
  | _, _, [] => True
  | laPre, laSuf, cell :: rest =>
    (cell = 0 → laPre = consumed) ∧
    (match laSuf with
     | [] => True
     | ac :: laRest => RowZeros consumed (laPre ++ [ac]) laRest rest)

/-- A sample candidate used by concrete witness instances. -/
def sampleCandidate : MatchCandidate :=
  ⟨⟨["turn left", "left", "go left", "take left"], "left", 123, "Turn left", 1⟩,
   "turn left", false, 0, .exact⟩

theorem startsWith_length_le {s w : List Char} (h : startsWith s w = true) :
    w.length ≤ s.length := by
  induction w generalizing s with
  | nil => simp
  | cons wc wrest ih =>
    cases s with
    | nil => simp [startsWith] at h
    | cons c cs =>
      simp only [startsWith, Bool.and_eq_true, decide_eq_true_eq] at h
      simpa using Nat.succ_le_succ (ih h.2)

theorem startsWith_eq_of_length {s w : List Char} (h : startsWith s w = true)
    (hl : w.length = s.length) : s = w := by
  induction w generalizing s with
  | nil =>
    cases s with
    | nil => rfl
    | cons c cs => simp at hl
  | cons wc wrest ih =>
    cases s with
    | nil => simp [startsWith] at h
    | cons c cs =>
      simp only [startsWith, Bool.and_eq_true, decide_eq_true_eq] at h
      simp only [List.length_cons, Nat.succ_inj] at hl
      simp [h.1, ih h.2 hl]

theorem jsIncludes_length_le {s sub : List Char} (h : jsIncludes s sub = true) :
    sub.length ≤ s.length := by
  induction s with
  | nil =>
    simp only [jsIncludes, List.isEmpty_iff] at h
    simp [h]
  | cons c cs ih =>
    simp only [jsIncludes, Bool.or_eq_true] at h
    rcases h with h | h
    · exact startsWith_length_le h
    · exact Nat.le_succ_of_le (ih h)

theorem jsIncludes_eq_of_length {s sub : List Char} (h : jsIncludes s sub = true)
    (hl : sub.length = s.length) : s = sub := by
  cases s with
  | nil =>
    simp only [jsIncludes, List.isEmpty_iff] at h
    simp [h]
  | cons c cs =>
    simp only [jsIncludes, Bool.or_eq_true] at h
    rcases h with h | h
    · exact startsWith_eq_of_length h hl
    · exact absurd (jsIncludes_length_le h) (by simp at hl; omega)

theorem absDiff_eq_zero {a b : Nat} : absDiff a b = 0 ↔ a = b := by
  simp only [absDiff]
  omega

theorem logCommand_head (h : List KResult) (e : KResult) :
    (logCommand h e).head? = some e := by
  unfold logCommand
  dsimp only
  split
  · rename_i hlen
    cases h with
    | nil => simp [MAX_HISTORY] at hlen
    | cons x xs => simp
  · simp

/-- Any candidate the scan returns carries the `isLowConfidence` flag it was
started with. -/
theorem scanPairs_isLow (t : String) (low : Bool) (pairs : List (Command × String))
    (b : Option MatchCandidate) (r : MatchCandidate)
    (hb : ∀ x, b = some x → x.isLowConfidence = low)
    (h : scanPairs t low b pairs = some r) : r.isLowConfidence = low := by
  induction pairs generalizing b with
  | nil => exact hb r h
  | cons cp rest ih =>
    rcases cp with ⟨c, p⟩
    simp only [scanPairs] at h
    split at h
    · cases h
      rfl
    · refine ih _ ?_ h
      intro x hx
      -- the update either keeps `b` or installs a candidate flagged `low`
      unfold updatePair updateFuzzy updateSub at hx
      dsimp only at hx
      repeat' split at hx
      all_goals first
        | (cases hx; rfl)
        | (exact hb x hx)

/-- Claim C2: the confidence gate rejects every pair below the
low-confidence floor regardless of candidate; otherwise the effective
threshold is the trainer-mode threshold when trainer mode is on and the
normal confidence threshold when off, a present candidate executes at or
above it and is suggested strictly below it; the gate agrees with what
`_matchCommand` plus `_handleResult` do; and concretely 0.60 against floor
0.65 rejects even with a candidate, 0.70 against threshold 0.75 (trainer
mode off) suggests, and 0.82 against trainer threshold 0.80 executes. -/
theorem c2_confidence_gate (o : Options) (cand : Option MatchCandidate)
    (conf : ℚ) (x : MatchCandidate) (cmds : List Command) (t : String) :
    (conf < o.lowConfidenceThreshold → gateDecide o cand conf = .reject) ∧
    (¬ conf < o.lowConfidenceThreshold →
      gateDecide o none conf = .reject ∧
      (getThreshold o ≤ conf → gateDecide o (some x) conf = .execute) ∧
      (conf < getThreshold o → gateDecide o (some x) conf = .suggest)) ∧
    (o.trainerMode = true → getThreshold o = o.trainerModeThreshold) ∧
    (o.trainerMode = false → getThreshold o = o.confidenceThreshold) ∧
    handleMatchOutcome (matchCommandOver cmds o t conf) =
      gateDecide o (matchCommandOver cmds o t conf) conf ∧
    gateDecide defaultOptions (some x) 0.60 = .reject ∧
    gateDecide defaultOptions (some x) 0.70 = .suggest ∧
    gateDecide { defaultOptions with trainerMode := true } (some x) 0.82 = .execute := by
  refine ⟨?_, ?_, ?_, ?_, ?_, ?_, ?_, ?_⟩
  · intro hlow
    simp [gateDecide, hlow]
  · intro hlow
    refine ⟨by simp [gateDecide, hlow], ?_, ?_⟩
    · intro hthr
      simp [gateDecide, hlow]
      exact hthr
    · intro hthr
      simp [gateDecide, hlow, hthr]
  · intro hm
    simp [getThreshold, hm]
  · intro hm
    simp [getThreshold, hm]
  · by_cases hlow : conf < o.lowConfidenceThreshold
    · simp [matchCommandOver, hlow, handleMatchOutcome, gateDecide]
    · simp only [matchCommandOver, if_neg hlow]
      cases hscan : scanPairs t (decide (conf < getThreshold o)) none (commandPairs cmds) with
      | none => simp [handleMatchOutcome, gateDecide, hlow]
      | some r =>
        have hflag := scanPairs_isLow t (decide (conf < getThreshold o))
          (commandPairs cmds) none r (by intro x hx; cases hx) hscan
        simp only [handleMatchOutcome, gateDecide, if_neg hlow, hflag]
        by_cases hthr : conf < getThreshold o
        · simp [hthr]
        · simp [hthr]
  · simp [gateDecide, defaultOptions]
    norm_num
  · simp only [gateDecide, defaultOptions]
    norm_num [getThreshold]
  · simp only [gateDecide, defaultOptions, getThreshold]
    norm_num

/-- Witness for C2 at concrete inputs. -/
theorem c2_witness :
    gateDecide defaultOptions (some sampleCandidate) 0.60 = GateOutcome.reject ∧
    gateDecide defaultOptions (some sampleCandidate) 0.70 = GateOutcome.suggest ∧
    gateDecide { defaultOptions with trainerMode := true } (some sampleCandidate) 0.82
      = GateOutcome.execute ∧
    gateDecide defaultOptions none 0.9 = GateOutcome.reject := by
  have h := c2_confidence_gate defaultOptions none 0.9 sampleCandidate VOICE_COMMANDS
    ("turn left")
  refine ⟨h.2.2.2.2.2.1, h.2.2.2.2.2.2.1, h.2.2.2.2.2.2.2, ?_⟩
  exact (h.2.1 (by norm_num [defaultOptions])).1

/-- Claim C7: with test mode enabled, `simulateKey` never consults the
action executor (the result and state are the same whatever the executor
would have returned), bypasses the rate-limit check and the queue (both the
queue and the last-executed timestamp are untouched, whatever the timing),
always succeeds, and prepends a history entry labeled test-mode. -/
theorem c7_test_mode (cfg : KConfig) (st : KState) (key : String) (now : Nat)
    (execOk : Bool) (h : cfg.testMode = true) :
    (simulateKey cfg st key now execOk).2.success = true ∧
    (simulateKey cfg st key now execOk).2.testMode = true ∧
    (simulateKey cfg st key now execOk).2.queued = false ∧
    (simulateKey cfg st key now execOk).2.error = none ∧
    (simulateKey cfg st key now execOk).1.lastCommandTime = st.lastCommandTime ∧
    (simulateKey cfg st key now execOk).1.commandQueue = st.commandQueue ∧
    (simulateKey cfg st key now execOk).1.commandHistory.head? =
      some (simulateKey cfg st key now execOk).2 ∧
    simulateKey cfg st key now true = simulateKey cfg st key now false := by
  simp only [simulateKey, h, if_pos rfl]
  refine ⟨rfl, rfl, rfl, rfl, rfl, rfl, ?_, rfl⟩
  exact logCommand_head st.commandHistory _

/-- Witness for C7: concrete test-mode submission. -/
theorem c7_witness :
    (simulateKey ⟨50, 300, 5, true⟩ ⟨0, [], []⟩ ("space") 10 false).2.success = true ∧
    (simulateKey ⟨50, 300, 5, true⟩ ⟨0, [], []⟩ ("space") 10 false).2.testMode = true ∧
    (simulateKey ⟨50, 300, 5, true⟩ ⟨0, [], []⟩ ("space") 10 false).2.queued = false ∧
    (simulateKey ⟨50, 300, 5, true⟩ ⟨0, [], []⟩ ("space") 10 false).2.error = none ∧
    (simulateKey ⟨50, 300, 5, true⟩ ⟨0, [], []⟩ ("space") 10 false).1.lastCommandTime = 0 ∧
    (simulateKey ⟨50, 300, 5, true⟩ ⟨0, [], []⟩ ("space") 10 false).1.commandQueue = [] ∧
    (simulateKey ⟨50, 300, 5, true⟩ ⟨0, [], []⟩ ("space") 10 false).1.commandHistory.head? =
      some (simulateKey ⟨50, 300, 5, true⟩ ⟨0, [], []⟩ ("space") 10 false).2 ∧
    simulateKey ⟨50, 300, 5, true⟩ ⟨0, [], []⟩ ("space") 10 true =
      simulateKey ⟨50, 300, 5, true⟩ ⟨0, [], []⟩ ("space") 10 false :=
  c7_test_mode ⟨50, 300, 5, true⟩ ⟨0, [], []⟩ ("space") 10 false rfl

/-- Claim C6: a submission arriving inside the rate window while the queue
already holds `maxQueueSize` entries fails with the distinct queue-full
error, is not executed (the executor result is irrelevant), records a failed
history entry, and leaves the queue and the last-executed timestamp
unchanged. -/
theorem c6_queue_full_drop (cfg : KConfig) (st : KState) (key : String) (now : Nat)
    (execOk : Bool) (hTest : cfg.testMode = false)
    (hRate : now - st.lastCommandTime < cfg.rateLimitMs)
    (hFull : cfg.maxQueueSize ≤ st.commandQueue.length) :
    (simulateKey cfg st key now execOk).2.success = false ∧
    (simulateKey cfg st key now execOk).2.error =
      some ("Rate limit exceeded, queue full") ∧
    (simulateKey cfg st key now execOk).2.queued = false ∧
    (simulateKey cfg st key now execOk).1.commandQueue = st.commandQueue ∧
    (simulateKey cfg st key now execOk).1.lastCommandTime = st.lastCommandTime ∧
    (simulateKey cfg st key now execOk).1.commandHistory.head? =
      some (simulateKey cfg st key now execOk).2 ∧
    simulateKey cfg st key now true = simulateKey cfg st key now false := by
  have hq : ¬ st.commandQueue.length < cfg.maxQueueSize := by omega
  simp only [simulateKey, hTest, Bool.false_eq_true, if_false, if_pos hRate, if_neg hq]
  simp [logCommand_head]

/-- Witness for C6: third rapid submission with `maxQueueSize = 1`. -/
theorem c6_witness :
    (simulateKey ⟨50, 300, 1, false⟩ ⟨100, [⟨("b"), 150⟩], []⟩ ("c") 200 true).2.success
      = false ∧
    (simulateKey ⟨50, 300, 1, false⟩ ⟨100, [⟨("b"), 150⟩], []⟩ ("c") 200 true).2.error
      = some ("Rate limit exceeded, queue full") ∧
    (simulateKey ⟨50, 300, 1, false⟩ ⟨100, [⟨("b"), 150⟩], []⟩ ("c") 200 true).2.queued
      = false ∧
    (simulateKey ⟨50, 300, 1, false⟩ ⟨100, [⟨("b"), 150⟩], []⟩ ("c") 200 true).1.commandQueue
      = [⟨("b"), 150⟩] ∧
    (simulateKey ⟨50, 300, 1, false⟩ ⟨100, [⟨("b"), 150⟩], []⟩ ("c") 200 true).1.lastCommandTime
      = 100 ∧
    (simulateKey ⟨50, 300, 1, false⟩ ⟨100, [⟨("b"), 150⟩], []⟩ ("c") 200 true).1.commandHistory.head?
      = some (simulateKey ⟨50, 300, 1, false⟩ ⟨100, [⟨("b"), 150⟩], []⟩ ("c") 200 true).2 ∧
    simulateKey ⟨50, 300, 1, false⟩ ⟨100, [⟨("b"), 150⟩], []⟩ ("c") 200 true =
      simulateKey ⟨50, 300, 1, false⟩ ⟨100, [⟨("b"), 150⟩], []⟩ ("c") 200 false :=
  c6_queue_full_drop ⟨50, 300, 1, false⟩ ⟨100, [⟨("b"), 150⟩], []⟩ ("c") 200 true rfl
    (by decide) (by decide)

/-- Claim C10: `_matchCommand` sorts a spread copy of the registry and never
mutates `VOICE_COMMANDS`: after any call the registry is the same array with
the same length, order, and per-command `phrases`, `key`, `description` and
`priority` fields. -/
theorem c10_registry_frame (t : String) (conf : ℚ) :
    (matchCommandFull VOICE_COMMANDS defaultOptions t conf).2 = VOICE_COMMANDS ∧
    (matchCommandFull VOICE_COMMANDS defaultOptions t conf).2.length = 31 ∧
    (matchCommandFull VOICE_COMMANDS defaultOptions t conf).2.map Command.phrases =
      VOICE_COMMANDS.map Command.phrases ∧
    (matchCommandFull VOICE_COMMANDS defaultOptions t conf).2.map Command.key =
      VOICE_COMMANDS.map Command.key ∧
    (matchCommandFull VOICE_COMMANDS defaultOptions t conf).2.map Command.description =
      VOICE_COMMANDS.map Command.description ∧
    (matchCommandFull VOICE_COMMANDS defaultOptions t conf).2.map Command.priority =
      VOICE_COMMANDS.map Command.priority :=
  ⟨rfl, rfl, rfl, rfl, rfl, rfl⟩

/-- Claim C8 (amended): while the session is still listening, each
unexpected engine end triggers `_attemptRestart`; at most
`maxRestartAttempts` restarts are attempted, the delay before the `k+1`-st
attempt is `restartDelay * (k+1)` — linear, strictly increasing growth —
and once the cap is exceeded the controller stops listening and reports the
fatal disconnect error instead of scheduling another attempt. -/
theorem c8_bounded_restart (k : Nat) (hk : k < maxRestartAttempts) :
    nthRestartDelay k = some (restartDelayMs * (k + 1)) ∧
    (restartIter (k + 1)).restartAttempts = k + 1 ∧
    (restartIter (k + 1)).isListening = true ∧
    (restartIter (k + 1)).fatalError = false ∧
    (∀ n, (restartIter n).restartAttempts ≤ maxRestartAttempts) ∧
    (restartIter (maxRestartAttempts + 1)).isListening = false ∧
    (restartIter (maxRestartAttempts + 1)).fatalError = true ∧
    nthRestartDelay maxRestartAttempts = none := by
  have hbound : ∀ n, (restartIter n).restartAttempts ≤ maxRestartAttempts := by
    intro n
    induction n with
    | zero => simp [restartIter, maxRestartAttempts]
    | succ m ih =>
      simp only [restartIter, onEnd, attemptRestart]
      split
      · split
        · simpa using ih
        · rename_i hcap
          simp only []
          omega
      · exact ih
  refine ⟨?_, ?_, ?_, ?_, hbound, ?_, ?_, ?_⟩
  · revert hk
    simp only [maxRestartAttempts]
    intro hk
    interval_cases k <;> rfl
  · revert hk
    simp only [maxRestartAttempts]
    intro hk
    interval_cases k <;> rfl
  · revert hk
    simp only [maxRestartAttempts]
    intro hk
    interval_cases k <;> rfl
  · revert hk
    simp only [maxRestartAttempts]
    intro hk
    interval_cases k <;> rfl
  · rfl
  · rfl
  · rfl

/-- Witness for C8 at the third consecutive disconnect. -/
theorem c8_witness :
    nthRestartDelay 2 = some 3000 ∧
    (restartIter 3).restartAttempts = 3 ∧
    (restartIter 3).isListening = true := by
  have h := c8_bounded_restart 2 (by decide)
  exact ⟨h.1, h.2.1, h.2.2.1⟩

/-- Counterexample for C8 as stated: the scheduled delays are 1000, 2000,
3000 ms (factor 2 then factor 3/2), so the delay does not grow
exponentially — there is no common ratio carrying each delay to the next. -/
theorem c8_counterexample :
    nthRestartDelay 0 = some 1000 ∧
    nthRestartDelay 1 = some 2000 ∧
    nthRestartDelay 2 = some 3000 ∧
    ¬ ∃ r : ℚ, 1 < r ∧ (2000 : ℚ) = r * 1000 ∧ (3000 : ℚ) = r * 2000 := by
  refine ⟨rfl, rfl, rfl, ?_⟩
  rintro ⟨r, -, h1, h2⟩
  have hr : r = 2 := by linarith
  rw [hr] at h2
  norm_num at h2

/-- The drain executes exactly the queued keys, in FIFO order. -/
theorem drainQueue_keys (cfg : KConfig) (q : List QueuedCommand) (now last : Nat) :
    (drainQueue cfg q now last).1.map Prod.fst = q.map QueuedCommand.key := by
  induction q generalizing now last with
  | nil => simp [drainQueue]
  | cons qc rest ih => simp [drainQueue, ih]

/-- Every drained execution happens at least one rate window after the
previous execution (the initial `last` included). -/
theorem drainQueue_spacing (cfg : KConfig) (hr : 0 < cfg.rateLimitMs)
    (q : List QueuedCommand) (now last : Nat) :
    List.Chain (fun a b => a + cfg.rateLimitMs ≤ b) last
      ((drainQueue cfg q now last).1.map Prod.snd) := by
  induction q generalizing now last with
  | nil => simp [drainQueue]
  | cons qc rest ih =>
    simp only [drainQueue, List.map_cons]
    constructor
    · split
      · omega
      · omega
    · exact ih _ _

/-- Claim C5: three submissions inside one rate window (queue empty, window
initially elapsed) give exactly one immediate execution and two queued
entries in submission order; the drain then executes them strictly in FIFO
order, and every execution is at least one rate window after the previous
execution's timestamp. -/
theorem c5_rate_limit_fifo (cfg : KConfig) (hist : List KResult)
    (k1 k2 k3 : String) (L t1 t2 t3 n0 : Nat) (ok1 ok2 ok3 : Bool)
    (hTest : cfg.testMode = false) (hr : 0 < cfg.rateLimitMs)
    (hq : 2 ≤ cfg.maxQueueSize)
    (hL : L + cfg.rateLimitMs ≤ t1) (h12 : t1 ≤ t2) (h23 : t2 ≤ t3)
    (hWin : t3 < t1 + cfg.rateLimitMs) :
    (submitSeq cfg ⟨L, [], hist⟩
        [(k1, t1, ok1), (k2, t2, ok2), (k3, t3, ok3)]).2.map KResult.queued =
      [false, true, true] ∧
    (submitSeq cfg ⟨L, [], hist⟩
        [(k1, t1, ok1), (k2, t2, ok2), (k3, t3, ok3)]).1.commandQueue =
      [⟨k2, t2⟩, ⟨k3, t3⟩] ∧
    (submitSeq cfg ⟨L, [], hist⟩
        [(k1, t1, ok1), (k2, t2, ok2), (k3, t3, ok3)]).1.lastCommandTime = t1 ∧
    (drainQueue cfg [⟨k2, t2⟩, ⟨k3, t3⟩] n0 t1).1.map Prod.fst = [k2, k3] ∧
    List.Chain (fun a b => a + cfg.rateLimitMs ≤ b) t1
      ((drainQueue cfg [⟨k2, t2⟩, ⟨k3, t3⟩] n0 t1).1.map Prod.snd) := by
  have c1 : ¬ (t1 - L < cfg.rateLimitMs) := by omega
  have c2 : t2 - t1 < cfg.rateLimitMs := by omega
  have c3 : t3 - t1 < cfg.rateLimitMs := by omega
  have s1 : simulateKey cfg ⟨L, [], hist⟩ k1 t1 ok1 =
      (⟨t1, [], logCommand hist ⟨ok1, false, false, k1, none, t1⟩⟩,
       ⟨ok1, false, false, k1, none, t1⟩) := by
    simp [simulateKey, hTest, c1]
  have s2 : ∀ h2 : List KResult, simulateKey cfg ⟨t1, [], h2⟩ k2 t2 ok2 =
      (⟨t1, [⟨k2, t2⟩], h2⟩, ⟨true, true, false, k2, none, t2⟩) := by
    intro h2
    have hlen : (0 : Nat) < cfg.maxQueueSize := by omega
    simp [simulateKey, hTest, c2, hlen, queueCommand]
  have s3 : ∀ h2 : List KResult, simulateKey cfg ⟨t1, [⟨k2, t2⟩], h2⟩ k3 t3 ok3 =
      (⟨t1, [⟨k2, t2⟩, ⟨k3, t3⟩], h2⟩, ⟨true, true, false, k3, none, t3⟩) := by
    intro h2
    have hlen : (1 : Nat) < cfg.maxQueueSize := by omega
    simp [simulateKey, hTest, c3, hlen, queueCommand]
  refine ⟨?_, ?_, ?_, ?_, ?_⟩
  · simp only [submitSeq, s1, s2, s3]
    rfl
  · simp only [submitSeq, s1, s2, s3]
  · simp only [submitSeq, s1, s2, s3]
  · rw [drainQueue_keys]
    rfl
  · exact drainQueue_spacing cfg hr _ n0 t1

/-- Witness for C5: defaults (300 ms window), submissions at 300/400/500 ms. -/
theorem c5_witness :
    (submitSeq defaultKConfig ⟨0, [], []⟩
        [(("a"), 300, true), (("b"), 400, true), (("c"), 500, true)]).2.map
      KResult.queued = [false, true, true] ∧
    (submitSeq defaultKConfig ⟨0, [], []⟩
        [(("a"), 300, true), (("b"), 400, true), (("c"), 500, true)]).1.commandQueue =
      [⟨("b"), 400⟩, ⟨("c"), 500⟩] ∧
    (submitSeq defaultKConfig ⟨0, [], []⟩
        [(("a"), 300, true), (("b"), 400, true), (("c"), 500, true)]).1.lastCommandTime
      = 300 ∧
    (drainQueue defaultKConfig [⟨("b"), 400⟩, ⟨("c"), 500⟩] 700 300).1.map Prod.fst =
      [("b"), ("c")] ∧
    List.Chain (fun a b => a + defaultKConfig.rateLimitMs ≤ b) 300
      ((drainQueue defaultKConfig [⟨("b"), 400⟩, ⟨("c"), 500⟩] 700 300).1.map
        Prod.snd) :=
  c5_rate_limit_fifo defaultKConfig [] ("a") ("b") ("c") 0 300 400 500 700 true true true
    rfl (by decide) (by decide) (by decide) (by decide) (by decide) (by decide)

/-- If some pair's phrase equals the transcript, the scan short-circuits at
the first such pair and returns it as an exact, score-0 candidate, whatever
the running best: no later command is evaluated. -/
theorem scanPairs_exact (t : String) (low : Bool)
    (pairs : List (Command × String)) (b : Option MatchCandidate)
    (c : Command) (p : String)
    (hfind : pairs.find? (fun cp => decide (t = cp.2)) = some (c, p)) :
    scanPairs t low b pairs = some ⟨c, p, low, 0, .exact⟩ := by
  induction pairs generalizing b with
  | nil => simp at hfind
  | cons hd rest ih =>
    rcases hd with ⟨c0, p0⟩
    by_cases h : t = p0
    · rw [List.find?_cons_of_pos _ (by simpa using h)] at hfind
      simp only [Option.some_inj] at hfind
      cases hfind
      simp [scanPairs, h]
    · rw [List.find?_cons_of_neg _ (by simpa using h)] at hfind
      simp only [scanPairs, if_neg h]
      exact ih _ hfind

/-- Membership is invariant under the stable insertion. -/
theorem mem_insertByPriority {a c : Command} {l : List Command} :
    a ∈ insertByPriority c l ↔ a = c ∨ a ∈ l := by
  induction l with
  | nil => simp [insertByPriority]
  | cons x xs ih =>
    simp only [insertByPriority]
    split
    · rw [List.mem_cons, ih, List.mem_cons]
      tauto
    · simp only [List.mem_cons]

/-- Membership is invariant under the priority sort. -/
theorem mem_sortCommands {a : Command} {cmds : List Command} :
    a ∈ sortCommands cmds ↔ a ∈ cmds := by
  have aux : ∀ (l : List Command) (acc : List Command),
      a ∈ l.foldl (fun acc c => insertByPriority c acc) acc ↔ a ∈ acc ∨ a ∈ l := by
    intro l
    induction l with
    | nil => simp
    | cons x xs ih =>
      intro acc
      simp only [List.foldl_cons, ih, mem_insertByPriority]
      constructor
      · rintro ((h | h) | h) <;> simp [h]
      · rintro (h | h)
        · simp [h]
        · rcases List.mem_cons.mp h with h | h
          · simp [h]
          · simp [h]
  unfold sortCommands
  rw [aux]
  simp

/-- A command of the registry and one of its phrases yield a scanned pair. -/
theorem mem_commandPairs {cmds : List Command} {c : Command} {p : String}
    (hc : c ∈ cmds) (hp : p ∈ c.phrases) : (c, p) ∈ commandPairs cmds := by
  unfold commandPairs
  exact List.mem_flatMap.mpr
    ⟨c, mem_sortCommands.mpr hc, List.mem_map.mpr ⟨p, hp, rfl⟩⟩

/-- A scanned pair's phrase belongs to its command, which is registered. -/
theorem commandPairs_phrase {cmds : List Command} {c : Command} {p : String}
    (h : (c, p) ∈ commandPairs cmds) : p ∈ c.phrases ∧ c ∈ cmds := by
  unfold commandPairs at h
  obtain ⟨c', hc', hmem⟩ := List.mem_flatMap.mp h
  obtain ⟨p', hp', heq⟩ := List.mem_map.mp hmem
  cases heq
  exact ⟨hp', mem_sortCommands.mp hc'⟩

/-- Above both confidence thresholds the matcher is the pair scan with the
low-confidence flag off. -/
theorem matchCommand_high (t : String) (conf : ℚ)
    (h1 : ¬ conf < 0.65) (h2 : ¬ conf < 0.75) :
    matchCommand t conf = scanPairs t false none (commandPairs VOICE_COMMANDS) := by
  unfold matchCommand matchCommandOver
  rw [if_neg (by simpa [defaultOptions] using h1)]
  congr 1
  simp only [getThreshold, defaultOptions, Bool.if_false_left]
  exact decide_eq_false (by simpa using h2)

/-- Claim C1 (amended): for every registered phrase whose normalized form is
itself a phrase of some command, matching the normalized phrase at
confidence 1.0 returns an exact candidate of score 0 whose matched phrase is
the normalized transcript; by `scanPairs_exact` the hit is the first one in
scan order and the scan stops there. -/
theorem c1_exact_normalized (p : String)
    (hp : p ∈ allPhrases VOICE_COMMANDS)
    (hn : normalizeTranscript p ∈ allPhrases VOICE_COMMANDS) :
    ∃ r, matchCommand (normalizeTranscript p) 1 = some r ∧ r.score = 0 ∧
      r.method = MatchMethod.exact ∧ r.matchedPhrase = normalizeTranscript p ∧
      normalizeTranscript p ∈ r.command.phrases := by
  obtain ⟨c, hc, hcp⟩ := List.mem_flatMap.mp hn
  have hmem : (c, normalizeTranscript p) ∈ commandPairs VOICE_COMMANDS :=
    mem_commandPairs hc hcp
  have hsome : ((commandPairs VOICE_COMMANDS).find?
      (fun cp => decide (normalizeTranscript p = cp.2))).isSome := by
    rw [List.find?_isSome]
    exact ⟨(c, normalizeTranscript p), hmem, by simp⟩
  obtain ⟨cp, hfind⟩ := Option.isSome_iff_exists.mp hsome
  rcases cp with ⟨c', p'⟩
  have hpred : normalizeTranscript p = p' := by simpa using List.find?_some hfind
  have hphr := commandPairs_phrase (List.mem_of_find?_eq_some hfind)
  refine ⟨⟨c', p', decide ((1 : ℚ) < getThreshold defaultOptions), 0, .exact⟩,
    ?_, rfl, rfl, hpred.symm, ?_⟩
  · unfold matchCommand matchCommandOver
    rw [if_neg (by norm_num [defaultOptions])]
    exact scanPairs_exact _ _ _ none c' p' hfind
  · rw [hpred]
    exact hphr.1

/-- Witness for C1 at the registered phrase `turn left` (normalization is
the identity on it, and it is an exact phrase). -/
theorem c1_witness :
    ∃ r, matchCommand (normalizeTranscript ("turn left")) 1 = some r ∧
      r.score = 0 ∧ r.method = MatchMethod.exact ∧
      r.matchedPhrase = normalizeTranscript ("turn left") ∧
      normalizeTranscript ("turn left") ∈ r.command.phrases := by
  have hnorm : normalizeTranscript ("turn left") = ("turn left") := by
    simp [normalizeTranscript, convertSpokenNumbersList, numberEntries, jsLower,
      jsLowerChar, trimChars, isWsChar, replaceWord, replWordGo, startsWith,
      noWordHead, isWordChar]
  exact c1_exact_normalized ("turn left") (by decide) (by rw [hnorm]; decide)

/-- Counterexample for C1 as stated: `nice one` is a registered phrase, but
its normalized form is `nice 1`, which is no registered phrase; matching it
at confidence 1.0 falls through to a substring match on `nice` with score 2,
not an exact score-0 hit. -/
theorem c1_counterexample :
    ("nice one" : String) ∈ allPhrases VOICE_COMMANDS ∧
    normalizeTranscript ("nice one") = ("nice 1") ∧
    matchCommand (normalizeTranscript ("nice one")) 1 =
      some ⟨⟨["nice", "nice one", "good job"], "9", 25, "Nice!", 2⟩, "nice",
            false, 2, .substring⟩ := by
  have hnorm : normalizeTranscript ("nice one") = ("nice 1") := by
    simp [normalizeTranscript, convertSpokenNumbersList, numberEntries, jsLower,
      jsLowerChar, trimChars, isWsChar, replaceWord, replWordGo, startsWith,
      noWordHead, isWordChar]
  refine ⟨by decide, hnorm, ?_⟩
  rw [hnorm, matchCommand_high _ 1 (by norm_num) (by norm_num)]
  decide

/-- Claim C3: for a phrase that is neither an exact nor a contains match,
the fuzzy step accepts it as a candidate exactly when the edit distance is
at most `max 2 ⌊len(phrase)*0.3⌋`; a transcript at exactly `⌊L*0.3⌋` edits
qualifies, one at `⌊L*0.3⌋+1` edits (when that is at least 3) does not, and
for short phrases the floor of 2 applies. -/
theorem c3_fuzzy_boundary (c : Command) (p t : String) (conf : ℚ)
    (hph : c.phrases = [p])
    (hconf : ¬ conf < defaultOptions.lowConfidenceThreshold)
    (hne : t ≠ p)
    (hsub : (jsIncludes t.data p.data || jsIncludes p.data t.data) = false) :
    ((matchCommandOver [c] defaultOptions t conf).isSome = true ↔
      levenshteinDistance t p ≤ max 2 (p.length * 3 / 10)) ∧
    (levenshteinDistance t p = p.length * 3 / 10 →
      (matchCommandOver [c] defaultOptions t conf).isSome = true) ∧
    (levenshteinDistance t p = p.length * 3 / 10 + 1 →
      3 ≤ levenshteinDistance t p →
      matchCommandOver [c] defaultOptions t conf = none) ∧
    (levenshteinDistance t p ≤ 2 →
      (matchCommandOver [c] defaultOptions t conf).isSome = true) := by
  have hcp : commandPairs [c] = [(c, p)] := by
    simp [commandPairs, sortCommands, insertByPriority, hph]
  have key : matchCommandOver [c] defaultOptions t conf =
      (if levenshteinDistance t p ≤ maxFuzzyDistance p
       then some ⟨c, p, decide (conf < getThreshold defaultOptions),
                  levenshteinDistance t p, .fuzzy⟩
       else none) := by
    unfold matchCommandOver
    rw [if_neg hconf, hcp]
    simp only [scanPairs, if_neg hne]
    unfold updatePair updateSub updateFuzzy
    rw [hsub]
    simp [scoreLtBest]
  refine ⟨?_, ?_, ?_, ?_⟩
  · rw [key]
    constructor
    · intro h
      by_contra hgt
      rw [if_neg (by simpa [maxFuzzyDistance] using hgt)] at h
      simp at h
    · intro h
      rw [if_pos (by simpa [maxFuzzyDistance] using h)]
      rfl
  · intro h
    rw [key, if_pos (by simp [maxFuzzyDistance]; omega)]
    rfl
  · intro h h3
    rw [key, if_neg (by simp [maxFuzzyDistance]; omega)]
  · intro h
    rw [key, if_pos (by simp [maxFuzzyDistance]; omega)]
    rfl

/-- Witness for C3: `trn lft` vs phrase `turn left` (length 9, distance 2,
bound `max 2 ⌊2.7⌋ = 2`) is accepted. -/
theorem c3_witness :
    (matchCommandOver [⟨["turn left"], "left", 123, "Turn left", 1⟩]
      defaultOptions ("trn lft") 0.9).isSome = true := by
  have h := c3_fuzzy_boundary ⟨["turn left"], "left", 123, "Turn left", 1⟩
    ("turn left") ("trn lft") 0.9 rfl (by norm_num [defaultOptions]) (by decide)
    (by decide)
  exact h.1.mpr (by decide)

theorem rowZeros_nil (consumed laPre laSuf : List Char) :
    RowZeros consumed laPre laSuf [] := by
  simp [RowZeros]

theorem rowZeros_cons_iff (consumed laPre : List Char) (laSuf : List Char)
    (cell : Nat) (rest : List Nat) :
    RowZeros consumed laPre laSuf (cell :: rest) ↔
      (cell = 0 → laPre = consumed) ∧
      (match laSuf with
       | [] => True
       | ac :: laRest => RowZeros consumed (laPre ++ [ac]) laRest rest) := by
  cases laSuf <;> simp [RowZeros]

theorem rowZeros_head {consumed laPre laSuf : List Char} {cell : Nat}
    {rest : List Nat} (h : RowZeros consumed laPre laSuf (cell :: rest)) :
    cell = 0 → laPre = consumed :=
  ((rowZeros_cons_iff _ _ _ _ _).mp h).1

theorem rowZeros_of_ne (consumed : List Char) :
    ∀ (row : List Nat) (laPre laSuf : List Char),
    (∀ v ∈ row, v ≠ 0) → RowZeros consumed laPre laSuf row := by
  intro row
  induction row with
  | nil => intro laPre laSuf _; exact rowZeros_nil _ _ _
  | cons cell rest ih =>
    intro laPre laSuf h
    rw [rowZeros_cons_iff]
    refine ⟨fun h0 => absurd h0 (h cell (List.mem_cons_self _ _)), ?_⟩
    cases laSuf with
    | nil => trivial
    | cons ac laRest => exact ih _ _ (fun v hv => h v (List.mem_cons_of_mem _ hv))

theorem rowZeros_range (la : List Char) :
    RowZeros [] [] la (List.range (la.length + 1)) := by
  rw [List.range_succ_eq_map]
  rw [rowZeros_cons_iff]
  refine ⟨fun _ => rfl, ?_⟩
  cases la with
  | nil => trivial
  | cons ac laRest =>
    refine rowZeros_of_ne [] _ _ _ ?_
    intro v hv
    obtain ⟨m, _, hm⟩ := List.mem_map.mp hv
    omega

theorem rowZeros_step (consumed : List Char) (bc : Char) :
    ∀ (laSuf laPre : List Char) (diag left : Nat) (prev : List Nat),
    RowZeros consumed laPre laSuf (diag :: prev) →
    (left = 0 → laPre = consumed ++ [bc]) →
    RowZeros (consumed ++ [bc]) laPre laSuf (left :: levRowGo bc laSuf diag left prev) := by
  intro laSuf
  induction laSuf with
  | nil =>
    intro laPre diag left prev _ hleft
    rw [rowZeros_cons_iff]
    exact ⟨hleft, trivial⟩
  | cons ac laRest ih =>
    intro laPre diag left prev hz hleft
    have hdiag : diag = 0 → laPre = consumed := rowZeros_head hz
    have htail : RowZeros consumed (laPre ++ [ac]) laRest prev :=
      ((rowZeros_cons_iff _ _ _ _ _).mp hz).2
    rw [rowZeros_cons_iff]
    refine ⟨hleft, ?_⟩
    cases prev with
    | nil => exact rowZeros_nil _ _ _
    | cons up prevRest =>
      simp only [levRowGo]
      by_cases hbc : bc = ac
      · simp only [if_pos hbc]
        refine ih (laPre ++ [ac]) up diag prevRest htail ?_
        intro h0
        rw [hdiag h0, hbc]
      · simp only [if_neg hbc]
        refine ih (laPre ++ [ac]) up _ prevRest htail ?_
        intro h0
        omega

theorem foldl_levNextRow_nil (la : List Char) :
    ∀ (lb : List Char),
    lb.foldl (fun prev bc => levNextRow bc la prev) [] = [] := by
  intro lb
  induction lb with
  | nil => rfl
  | cons bc lbRest ih => simpa [levNextRow] using ih

theorem rowZeros_fold (la : List Char) :
    ∀ (lb : List Char) (row : List Nat) (consumed : List Char),
    RowZeros consumed [] la row →
    RowZeros (consumed ++ lb) [] la
      (lb.foldl (fun prev bc => levNextRow bc la prev) row) := by
  intro lb
  induction lb with
  | nil => intro row consumed h; simpa using h
  | cons bc lbRest ih =>
    intro row consumed h
    simp only [List.foldl_cons]
    cases row with
    | nil =>
      rw [show levNextRow bc la [] = [] from rfl, foldl_levNextRow_nil]
      exact rowZeros_nil _ _ _
    | cons p0 rest =>
      have hstep : RowZeros (consumed ++ [bc]) [] la
          (levNextRow bc la (p0 :: rest)) := by
        simp only [levNextRow]
        exact rowZeros_step consumed bc la [] p0 (p0 + 1) rest h (by omega)
      have := ih (levNextRow bc la (p0 :: rest)) (consumed ++ [bc]) hstep
      simpa using this

theorem levRowGo_length (bc : Char) :
    ∀ (laSuf : List Char) (diag left : Nat) (prev : List Nat),
    (levRowGo bc laSuf diag left prev).length = min laSuf.length prev.length := by
  intro laSuf
  induction laSuf with
  | nil => intro diag left prev; simp [levRowGo]
  | cons ac laRest ih =>
    intro diag left prev
    cases prev with
    | nil => simp [levRowGo]
    | cons up prevRest =>
      simp only [levRowGo, List.length_cons, ih]
      omega

theorem foldl_levNextRow_length (la : List Char) :
    ∀ (lb : List Char) (row : List Nat),
    row.length = la.length + 1 →
    (lb.foldl (fun prev bc => levNextRow bc la prev) row).length = la.length + 1 := by
  intro lb
  induction lb with
  | nil => intro row h; simpa using h
  | cons bc lbRest ih =>
    intro row h
    simp only [List.foldl_cons]
    refine ih _ ?_
    cases row with
    | nil => simp at h
    | cons p0 rest =>
      simp only [levNextRow, List.length_cons, levRowGo_length]
      simp only [List.length_cons] at h
      omega

theorem getLastD_of_ne_nil {α : Type} {row : List α} (h : row ≠ []) (d1 d2 : α) :
    row.getLastD d1 = row.getLastD d2 := by
  cases row with
  | nil => exact absurd rfl h
  | cons x xs => rw [List.getLastD_cons, List.getLastD_cons]

theorem rowZeros_getLast (consumed : List Char) :
    ∀ (laSuf laPre : List Char) (row : List Nat),
    RowZeros consumed laPre laSuf row →
    row.length = laSuf.length + 1 →
    row.getLastD 0 = 0 →
    laPre ++ laSuf = consumed := by
  intro laSuf
  induction laSuf with
  | nil =>
    intro laPre row hz hlen hlast
    match row, hlen with
    | [cell], _ =>
      simp only [List.getLastD_cons, List.getLastD_nil] at hlast
      simpa using rowZeros_head hz hlast
  | cons ac laRest ih =>
    intro laPre row hz hlen hlast
    cases row with
    | nil => simp at hlen
    | cons cell rest =>
      have hrest : rest ≠ [] := by
        simp only [List.length_cons] at hlen
        intro hr
        rw [hr] at hlen
        simp at hlen
      have htail : RowZeros consumed (laPre ++ [ac]) laRest rest :=
        ((rowZeros_cons_iff _ _ _ _ _).mp hz).2
      have hlast' : rest.getLastD 0 = 0 := by
        rw [List.getLastD_cons] at hlast
        rw [getLastD_of_ne_nil hrest 0 cell]
        exact hlast
      have := ih (laPre ++ [ac]) rest htail
        (by simp only [List.length_cons] at hlen ⊢; omega) hlast'
      simpa using this

/-- A Levenshtein distance of zero forces the strings to be equal. -/
theorem levenshteinDistance_eq_zero {a b : String}
    (h : levenshteinDistance a b = 0) : a = b := by
  unfold levenshteinDistance at h
  have h0 : RowZeros [] [] a.data (List.range (a.data.length + 1)) :=
    rowZeros_range a.data
  have hfold := rowZeros_fold a.data b.data _ [] h0
  simp only [List.nil_append] at hfold
  have hlen : (b.data.foldl (fun prev bc => levNextRow bc a.data prev)
      (List.range (a.data.length + 1))).length = a.data.length + 1 :=
    foldl_levNextRow_length a.data b.data _ (by simp)
  have hdata := rowZeros_getLast b.data a.data [] _ hfold hlen h
  simp only [List.nil_append] at hdata
  cases a
  cases b
  exact congrArg String.mk hdata

/-- A qualifying contains match of score 0 would force transcript = phrase. -/
theorem subScore_pos {t p : String} (hne : t ≠ p)
    (hs : (jsIncludes t.data p.data || jsIncludes p.data t.data) = true) :
    0 < absDiff t.length p.length := by
  rcases Nat.eq_zero_or_pos (absDiff t.length p.length) with h0 | h
  · exfalso
    have hlen : t.length = p.length := absDiff_eq_zero.mp h0
    have hlen' : t.data.length = p.data.length := hlen
    rcases Bool.or_eq_true_iff.mp hs with h1 | h2
    · have := jsIncludes_eq_of_length h1 hlen'.symm
      exact hne (congrArg String.mk this)
    · have := jsIncludes_eq_of_length h2 hlen'
      exact hne (congrArg String.mk this.symm)
  · exact h

theorem scoreLtBest_of_lt {n m : Nat} {b : Option MatchCandidate}
    (h : scoreLtBest m b = true) (hnm : n < m) : scoreLtBest n b = true := by
  cases b with
  | none => rfl
  | some x =>
    simp only [scoreLtBest, decide_eq_true_eq] at *
    omega

/-- Non-exact processing of one pair either keeps the running best or
strictly improves it with a positive-score candidate of this command. -/
theorem updatePair_cases (t : String) (low : Bool) (c : Command) (p : String)
    (b : Option MatchCandidate) (hne : t ≠ p) :
    updatePair t low c p b = b ∨
    ∃ y, updatePair t low c p b = some y ∧ y.command = c ∧ 0 < y.score ∧
      scoreLtBest y.score b = true := by
  by_cases hs : (jsIncludes t.data p.data || jsIncludes p.data t.data) = true
  · by_cases hlt : scoreLtBest (absDiff t.length p.length) b = true
    · -- contains match recorded
      have hsubEq : updateSub t low c p b =
          some ⟨c, p, low, absDiff t.length p.length, .substring⟩ := by
        unfold updateSub
        rw [if_pos hs]
        dsimp only
        rw [if_pos hlt]
      by_cases hf : levenshteinDistance t p ≤ maxFuzzyDistance p ∧
          scoreLtBest (levenshteinDistance t p)
            (some ⟨c, p, low, absDiff t.length p.length, .substring⟩) = true
      · right
        refine ⟨⟨c, p, low, levenshteinDistance t p, .fuzzy⟩, ?_, rfl, ?_, ?_⟩
        · unfold updatePair updateFuzzy
          rw [hsubEq]
          dsimp only
          rw [if_pos hf]
        · rcases Nat.eq_zero_or_pos (levenshteinDistance t p) with h0 | h
          · exact absurd (levenshteinDistance_eq_zero h0) hne
          · exact h
        · have hlt2 : levenshteinDistance t p < absDiff t.length p.length := by
            simpa [scoreLtBest] using hf.2
          exact scoreLtBest_of_lt hlt hlt2
      · right
        refine ⟨⟨c, p, low, absDiff t.length p.length, .substring⟩, ?_, rfl,
          subScore_pos hne hs, hlt⟩
        unfold updatePair updateFuzzy
        rw [hsubEq]
        dsimp only
        rw [if_neg hf]
    · -- contains match not better; only the fuzzy step can update
      have hsubEq : updateSub t low c p b = b := by
        unfold updateSub
        rw [if_pos hs]
        dsimp only
        rw [if_neg hlt]
      by_cases hf : levenshteinDistance t p ≤ maxFuzzyDistance p ∧
          scoreLtBest (levenshteinDistance t p) b = true
      · right
        refine ⟨⟨c, p, low, levenshteinDistance t p, .fuzzy⟩, ?_, rfl, ?_, hf.2⟩
        · unfold updatePair updateFuzzy
          rw [hsubEq]
          dsimp only
          rw [if_pos hf]
        · rcases Nat.eq_zero_or_pos (levenshteinDistance t p) with h0 | h
          · exact absurd (levenshteinDistance_eq_zero h0) hne
          · exact h
      · left
        unfold updatePair updateFuzzy
        rw [hsubEq]
        dsimp only
        rw [if_neg hf]
  · -- no contains match
    have hsubEq : updateSub t low c p b = b := by
      unfold updateSub
      rw [if_neg hs]
    by_cases hf : levenshteinDistance t p ≤ maxFuzzyDistance p ∧
        scoreLtBest (levenshteinDistance t p) b = true
    · right
      refine ⟨⟨c, p, low, levenshteinDistance t p, .fuzzy⟩, ?_, rfl, ?_, hf.2⟩
      · unfold updatePair updateFuzzy
        rw [hsubEq]
        dsimp only
        rw [if_pos hf]
      · rcases Nat.eq_zero_or_pos (levenshteinDistance t p) with h0 | h
        · exact absurd (levenshteinDistance_eq_zero h0) hne
        · exact h
    · left
      unfold updatePair updateFuzzy
      rw [hsubEq]
      dsimp only
      rw [if_neg hf]

/-- No displacement: a positive-score running best is only replaced by a
strictly better candidate; a later equal score never displaces it. -/
theorem scanPairs_no_displace (t : String) (low : Bool) :
    ∀ (pairs : List (Command × String)) (x r : MatchCandidate),
    0 < x.score →
    scanPairs t low (some x) pairs = some r →
    r = x ∨ r.score < x.score := by
  intro pairs
  induction pairs with
  | nil =>
    intro x r hx h
    left
    exact (Option.some_inj.mp h).symm
  | cons cp rest ih =>
    intro x r hx h
    rcases cp with ⟨c, p⟩
    simp only [scanPairs] at h
    split at h
    · right
      have := Option.some_inj.mp h
      rw [← this]
      exact hx
    · rename_i hne
      rcases updatePair_cases t low c p (some x) hne with hcase | ⟨y, hy, _, hypos, hylt⟩
      · rw [hcase] at h
        exact ih x r hx h
      · rw [hy] at h
        have hyx : y.score < x.score := by
          simpa [scoreLtBest] using hylt
        rcases ih y r hypos h with h1 | h1
        · right
          rw [h1]
          exact hyx
        · right
          omega

/-- `updateSub` either keeps the best or, when the contains condition
holds, installs the contains candidate. -/
theorem updateSub_cases (t : String) (low : Bool) (c : Command) (p : String)
    (b : Option MatchCandidate) :
    updateSub t low c p b = b ∨
    ((jsIncludes t.data p.data || jsIncludes p.data t.data) = true ∧
      updateSub t low c p b =
        some ⟨c, p, low, absDiff t.length p.length, .substring⟩) := by
  unfold updateSub
  by_cases hs : (jsIncludes t.data p.data || jsIncludes p.data t.data) = true
  · rw [if_pos hs]
    dsimp only
    by_cases hlt : scoreLtBest (absDiff t.length p.length) b = true
    · right
      exact ⟨hs, by rw [if_pos hlt]⟩
    · left
      rw [if_neg hlt]
  · left
    rw [if_neg hs]

/-- When the contains condition holds, `updateSub` leaves a best at most the
contains score: either the freshly installed candidate or an already better
previous best. -/
theorem updateSub_le (t : String) (low : Bool) (c : Command) (p : String)
    (b : Option MatchCandidate)
    (hs : (jsIncludes t.data p.data || jsIncludes p.data t.data) = true) :
    ∃ y, updateSub t low c p b = some y ∧ y.score ≤ absDiff t.length p.length ∧
      (y = ⟨c, p, low, absDiff t.length p.length, .substring⟩ ∨ b = some y) := by
  unfold updateSub
  rw [if_pos hs]
  dsimp only
  by_cases hlt : scoreLtBest (absDiff t.length p.length) b = true
  · rw [if_pos hlt]
    exact ⟨_, rfl, le_refl _, Or.inl rfl⟩
  · rw [if_neg hlt]
    cases b with
    | none => exact absurd rfl hlt
    | some x =>
      refine ⟨x, rfl, ?_, Or.inr rfl⟩
      simp only [scoreLtBest, decide_eq_true_eq] at hlt
      omega

/-- When the fuzzy filter accepts, `updateFuzzy` leaves a best at most the
edit distance. -/
theorem updateFuzzy_le (t : String) (low : Bool) (c : Command) (p : String)
    (b : Option MatchCandidate)
    (hmax : levenshteinDistance t p ≤ maxFuzzyDistance p) :
    ∃ y, updateFuzzy t low c p b = some y ∧ y.score ≤ levenshteinDistance t p ∧
      (y = ⟨c, p, low, levenshteinDistance t p, .fuzzy⟩ ∨ b = some y) := by
  unfold updateFuzzy
  dsimp only
  by_cases hlt : scoreLtBest (levenshteinDistance t p) b = true
  · rw [if_pos ⟨hmax, hlt⟩]
    exact ⟨_, rfl, le_refl _, Or.inl rfl⟩
  · rw [if_neg (by intro hc; exact hlt hc.2)]
    cases b with
    | none => exact absurd rfl hlt
    | some x =>
      refine ⟨x, rfl, ?_, Or.inr rfl⟩
      simp only [scoreLtBest, decide_eq_true_eq] at hlt
      omega

/-- `updateFuzzy` never worsens a present best. -/
theorem updateFuzzy_mono (t : String) (low : Bool) (c : Command) (p : String)
    (x : MatchCandidate) :
    ∃ y, updateFuzzy t low c p (some x) = some y ∧ y.score ≤ x.score ∧
      (y = ⟨c, p, low, levenshteinDistance t p, .fuzzy⟩ ∨ y = x) := by
  unfold updateFuzzy
  dsimp only
  by_cases hf : levenshteinDistance t p ≤ maxFuzzyDistance p ∧
      scoreLtBest (levenshteinDistance t p) (some x) = true
  · rw [if_pos hf]
    refine ⟨_, rfl, ?_, Or.inl rfl⟩
    show levenshteinDistance t p ≤ x.score
    have := hf.2
    simp only [scoreLtBest, decide_eq_true_eq] at this
    omega
  · rw [if_neg hf]
    exact ⟨x, rfl, le_refl _, Or.inr rfl⟩

/-- Processing a qualifying pair leaves a present best whose score is at
most the qualifying score and positive, owned by this command unless the
previous best was kept. -/
theorem updatePair_qualifies (t : String) (low : Bool) (c : Command) (p : String)
    (s : Nat) (b : Option MatchCandidate) (hne : t ≠ p) (hq : qualifiesAt t p s)
    (hb : ∀ x, b = some x → 0 < x.score) :
    ∃ y, updatePair t low c p b = some y ∧ y.score ≤ s ∧ 0 < y.score ∧
      (y.command = c ∨ b = some y) := by
  have hlevpos : 0 < levenshteinDistance t p := by
    rcases Nat.eq_zero_or_pos (levenshteinDistance t p) with h0 | h
    · exact absurd (levenshteinDistance_eq_zero h0) hne
    · exact h
  rcases hq with ⟨hs, hscore⟩ | ⟨hlev, hmax⟩
  · -- the contains step scores `s`
    obtain ⟨y1, hy1, hy1le, hy1src⟩ := updateSub_le t low c p b hs
    obtain ⟨y2, hy2, hy2le, hy2src⟩ := updateFuzzy_mono t low c p y1
    have hy1pos : 0 < y1.score := by
      rcases hy1src with h | h
      · rw [h]
        exact hscore ▸ (hscore ▸ subScore_pos hne hs)
      · exact hb y1 h
    refine ⟨y2, ?_, ?_, ?_, ?_⟩
    · unfold updatePair
      rw [hy1]
      exact hy2
    · omega
    · rcases hy2src with h | h
      · rw [h]
        exact hlevpos
      · rw [h]
        exact hy1pos
    · rcases hy2src with h | h
      · left
        rw [h]
      · rw [h]
        rcases hy1src with h1 | h1
        · left
          rw [h1]
        · right
          exact h1
  · -- the fuzzy step qualifies at distance `s`
    obtain ⟨y2, hy2, hy2le, hy2src⟩ :=
      updateFuzzy_le t low c p (updateSub t low c p b) (hlev ▸ hmax)
    refine ⟨y2, ?_, by omega, ?_, ?_⟩
    · unfold updatePair
      exact hy2
    · rcases hy2src with h | h
      · rw [h]
        exact hlevpos
      · rcases updateSub_cases t low c p b with hc | ⟨hsub, hc⟩
        · rw [hc] at h
          exact hb y2 h
        · rw [hc] at h
          have : y2 = ⟨c, p, low, absDiff t.length p.length, .substring⟩ :=
            (Option.some_inj.mp h).symm
          rw [this]
          exact subScore_pos hne hsub
    · rcases hy2src with h | h
      · left
        rw [h]
      · rcases updateSub_cases t low c p b with hc | ⟨hsub, hc⟩
        · rw [hc] at h
          right
          exact h
        · rw [hc] at h
          left
          rw [(Option.some_inj.mp h).symm]

/-- Scanning past a qualifying pair of command `c1`, starting from a best
owned by priorities at most `c1`'s, a result that still carries the
qualifying score belongs to a command of priority at most `c1`'s. -/
theorem scanPairs_priority_bound (t : String) (low : Bool) (c1 : Command)
    (p1 : String) (s : Nat) (ys : List (Command × String))
    (hq1 : qualifiesAt t p1 s) :
    ∀ (xs : List (Command × String)) (b : Option MatchCandidate)
      (r : MatchCandidate),
    (∀ x, b = some x → 0 < x.score ∧ x.command.priority ≤ c1.priority) →
    (∀ cp ∈ xs, (cp.1).priority ≤ c1.priority) →
    scanPairs t low b (xs ++ (c1, p1) :: ys) = some r →
    r.score = s →
    r.command.priority ≤ c1.priority := by
  intro xs
  induction xs with
  | nil =>
    intro b r hb _ h hs
    simp only [List.nil_append, scanPairs] at h
    split at h
    · rw [← Option.some_inj.mp h]
    · rename_i hne
      obtain ⟨y, hy, hyle, hypos, hysrc⟩ :=
        updatePair_qualifies t low c1 p1 s b hne hq1 (fun x hx => (hb x hx).1)
      rw [hy] at h
      have hyprio : y.command.priority ≤ c1.priority := by
        rcases hysrc with hc | hc
        · rw [hc]
        · exact (hb y hc).2
      rcases scanPairs_no_displace t low ys y r hypos h with h1 | h1
      · rw [h1]
        exact hyprio
      · omega
  | cons cp0 xs' ih =>
    intro b r hb hxs h hs
    rcases cp0 with ⟨c0, p0⟩
    simp only [List.cons_append, scanPairs] at h
    split at h
    · rw [← Option.some_inj.mp h]
      exact hxs (c0, p0) (List.mem_cons_self _ _)
    · rename_i hne0
      refine ih (updatePair t low c0 p0 b) r ?_
        (fun cp hcp => hxs cp (List.mem_cons_of_mem _ hcp)) h hs
      intro x hx
      rcases updatePair_cases t low c0 p0 b hne0 with hcase | ⟨y, hy, hyc, hypos, _⟩
      · rw [hcase] at hx
        exact hb x hx
      · rw [hy] at hx
        rw [← Option.some_inj.mp hx]
        exact ⟨hypos, by rw [hyc]; exact hxs (c0, p0) (List.mem_cons_self _ _)⟩

/-- Claim C4: commands are scanned in ascending priority order and only a
strictly lower score displaces the running best, so when two commands of
different priority tiers hold qualifying matches of equal score and the
returned match carries that score, the returned command sits in the
higher-priority tier: its priority number is at most the better command's
and strictly below the worse command's (an already-recorded higher-priority
candidate is never displaced by an equal-score lower-priority one). -/
theorem c4_priority_tie_break (t : String) (conf : ℚ) (c1 c2 : Command)
    (p1 p2 : String) (s : Nat) (m : MatchCandidate)
    (hc1 : c1 ∈ VOICE_COMMANDS) (hc2 : c2 ∈ VOICE_COMMANDS)
    (hp1 : p1 ∈ c1.phrases) (hp2 : p2 ∈ c2.phrases)
    (hpr : c1.priority < c2.priority)
    (hq1 : qualifiesAt t p1 s) (hq2 : qualifiesAt t p2 s)
    (hm : matchCommand t conf = some m) (hs : m.score = s) :
    m.command.priority ≤ c1.priority ∧ m.command.priority < c2.priority := by
  have hmem : (c1, p1) ∈ commandPairs VOICE_COMMANDS := mem_commandPairs hc1 hp1
  obtain ⟨xs, ys, hsplit⟩ := List.append_of_mem hmem
  have hsorted : List.Pairwise (fun a b => a.1.priority ≤ b.1.priority)
      (commandPairs VOICE_COMMANDS) := by decide
  have hxs : ∀ cp ∈ xs, (cp.1).priority ≤ c1.priority := by
    rw [hsplit] at hsorted
    have hmid := (List.pairwise_append.mp hsorted).2.2
    intro cp hcp
    exact hmid cp hcp (c1, p1) (List.mem_cons_self _ _)
  unfold matchCommand matchCommandOver at hm
  split at hm
  · exact absurd hm (by simp)
  · rw [hsplit] at hm
    have hbound := scanPairs_priority_bound t _ c1 p1 s ys hq1 xs none m
      (by intro x hx; cases hx) hxs hm hs
    exact ⟨hbound, lt_of_le_of_lt hbound hpr⟩

/-- Witness for C4: `left wave` holds equal-score (5) contains matches for
the priority-1 phrase `left` and the priority-2 phrase `wave`; the match
goes to the priority-1 turn-left command. -/
theorem c4_witness :
    (matchCommand ("left wave") 0.9 =
      some ⟨⟨["turn left", "left", "go left", "take left"], "left", 123,
             "Turn left", 1⟩, "left", false, 5, .substring⟩) ∧
    (⟨["turn left", "left", "go left", "take left"], "left", 123, "Turn left",
      1⟩ : Command).priority ≤ 1 ∧
    (1 : Nat) < 2 := by
  have hm : matchCommand ("left wave") 0.9 =
      some ⟨⟨["turn left", "left", "go left", "take left"], "left", 123,
             "Turn left", 1⟩, "left", false, 5, .substring⟩ := by
    rw [matchCommand_high _ _ (by norm_num) (by norm_num)]
    decide
  have h := c4_priority_tie_break ("left wave") 0.9
    ⟨["turn left", "left", "go left", "take left"], "left", 123, "Turn left", 1⟩
    ⟨["wave", "say hi", "hello", "hi there"], "5", 23, "Wave", 2⟩
    ("left") ("wave") 5
    ⟨⟨["turn left", "left", "go left", "take left"], "left", 123, "Turn left", 1⟩,
     "left", false, 5, .substring⟩
    (by decide) (by decide) (by decide) (by decide) (by decide)
    (Or.inl (by refine ⟨by decide, by decide⟩))
    (Or.inl (by refine ⟨by decide, by decide⟩))
    hm rfl
  exact ⟨hm, h.1, h.2⟩

theorem dropWhile_head_false (p : Char → Bool) :
    ∀ (l : List Char) (c : Char) (rest : List Char),
    l.dropWhile p = c :: rest → p c = false := by
  intro l
  induction l with
  | nil => intro c rest h; simp at h
  | cons x xs ih =>
    intro c rest h
    rw [List.dropWhile_cons] at h
    split at h
    · exact ih c rest h
    · rename_i hx
      cases h
      simpa using hx

theorem chunks_flatten : ∀ (s : List Char), (chunks s).flatten = s := by
  intro s
  induction s using chunks.induct with
  | case1 => simp [chunks]
  | case2 c rest hw ih =>
    rw [chunks, if_pos hw]
    simp [ih, List.takeWhile_append_dropWhile]
  | case3 c rest hw ih =>
    rw [chunks, if_neg hw]
    simp [ih]

theorem chunks_chunked : ∀ (s : List Char), Chunked (chunks s) := by
  intro s
  induction s using chunks.induct with
  | case1 => exact ⟨by simp [chunks], by simp [chunks]⟩
  | case2 c rest hw ih =>
    rw [chunks, if_pos hw]
    rcases ih with ⟨ihmem, ihchain⟩
    constructor
    · intro ch hch
      rcases List.mem_cons.mp hch with h | h
      · left
        rw [h]
        simp only [isWordRun, Bool.and_eq_true, Bool.not_eq_true']
        refine ⟨by simp, ?_⟩
        simp only [List.all_cons, Bool.and_eq_true]
        exact ⟨hw, List.all_takeWhile⟩
      · exact ihmem ch h
    · rw [List.chain'_cons']
      refine ⟨?_, ihchain⟩
      intro b hb
      rcases hx : rest.dropWhile isWordChar with _ | ⟨c', rest'⟩
      · rw [hx] at hb
        simp [chunks] at hb
      · rw [hx] at hb
        rw [chunks, if_neg (by simp [dropWhile_head_false isWordChar rest c' rest' hx])] at hb
        simp only [List.head?_cons, Option.mem_def, Option.some_inj] at hb
        subst hb
        intro hcon
        have := hcon.2
        simp only [isWordRun, List.all_cons, Bool.and_eq_true, Bool.not_eq_true'] at this
        rw [dropWhile_head_false isWordChar rest c' rest' hx] at this
        simp at this
  | case3 c rest hw ih =>
    rw [chunks, if_neg hw]
    rcases ih with ⟨ihmem, ihchain⟩
    constructor
    · intro ch hch
      rcases List.mem_cons.mp hch with h | h
      · right
        rw [h]
        simp only [isSepChunk, Bool.not_eq_true']
        simpa using hw
      · exact ihmem ch h
    · rw [List.chain'_cons']
      refine ⟨?_, ihchain⟩
      intro b hb
      intro hcon
      have := hcon.1
      simp only [isWordRun, List.all_cons, Bool.and_eq_true, Bool.not_eq_true'] at this
      rw [show isWordChar c = false by simpa using hw] at this
      simp at this

theorem startsWith_append_self (w t : List Char) : startsWith (w ++ t) w = true := by
  induction w with
  | nil => simp [startsWith]
  | cons wc wrest ih => simp [startsWith, ih]

theorem startsWith_exists {s w : List Char} (h : startsWith s w = true) :
    ∃ t, s = w ++ t := by
  induction w generalizing s with
  | nil => exact ⟨s, rfl⟩
  | cons wc wrest ih =>
    cases s with
    | nil => simp [startsWith] at h
    | cons c cs =>
      simp only [startsWith, Bool.and_eq_true, decide_eq_true_eq] at h
      obtain ⟨t, ht⟩ := ih h.2
      exact ⟨t, by simp [h.1, ht]⟩

/-- At a non-word character the scanner behaves the same whatever the
previous-character flag: a word pattern cannot start there. -/
theorem replWordGo_prev_sep (w d : List Char) (hw : w ≠ [])
    (hwall : w.all isWordChar = true) (s : List Char)
    (hs : s = [] ∨ noWordHead s = true) :
    replWordGo w d true s = replWordGo w d false s := by
  cases s with
  | nil => simp [replWordGo]
  | cons c rest =>
    rcases hs with h | h
    · simp at h
    · have hc : isWordChar c = false := by
        simpa [noWordHead] using h
      have hsw : startsWith (c :: rest) w = false := by
        cases w with
        | nil => exact absurd rfl hw
        | cons wc wrest =>
          have hwc : isWordChar wc = true := by
            simp only [List.all_cons, Bool.and_eq_true] at hwall
            exact hwall.1
          simp only [startsWith, Bool.and_eq_false_iff]
          left
          simp only [decide_eq_false_iff_not]
          intro hcw
          rw [hcw, hwc] at hc
          cases hc
      have e1 : replWordGo w d true (c :: rest) =
          c :: replWordGo w d (isWordChar c) rest := by
        rw [replWordGo, if_neg (by simp)]
      have e2 : replWordGo w d false (c :: rest) =
          c :: replWordGo w d (isWordChar c) rest := by
        rw [replWordGo, if_neg (by simp [hsw])]
      rw [e1, e2]

/-- With the previous-character flag set, the scanner copies a run of word
characters unchanged: no boundary can open inside it. -/
theorem replWordGo_copy_run (w d : List Char) :
    ∀ (run rest : List Char), run.all isWordChar = true →
    replWordGo w d true (run ++ rest) = run ++ replWordGo w d true rest := by
  intro run
  induction run with
  | nil => intro rest _; simp
  | cons c run' ih =>
    intro rest hall
    simp only [List.all_cons, Bool.and_eq_true] at hall
    have e : replWordGo w d true (c :: (run' ++ rest)) =
        c :: replWordGo w d (isWordChar c) (run' ++ rest) := by
      rw [replWordGo, if_neg (by simp)]
    rw [List.cons_append, e, hall.1, ih rest hall.2]
    rfl

/-- A whole-word match cannot start at a complete word run different from
the pattern: either the boundary after the pattern falls inside the run, or
the pattern would have to continue past the run into a non-word character. -/
theorem no_cross_match (w ch fl : List Char) (hw : w ≠ [])
    (hwall : w.all isWordChar = true) (hch : isWordRun ch = true)
    (hne : ch ≠ w) (hfl : fl = [] ∨ noWordHead fl = true) :
    ¬ (startsWith (ch ++ fl) w = true ∧
       noWordHead (List.drop w.length (ch ++ fl)) = true) := by
  rintro ⟨hsw, hnw⟩
  obtain ⟨t, ht⟩ := startsWith_exists hsw
  have hcha : ch.all isWordChar = true := by
    simp only [isWordRun, Bool.and_eq_true] at hch
    exact hch.2
  rcases Nat.lt_trichotomy w.length ch.length with hlt | heq | hgt
  · have hdrop : List.drop w.length (ch ++ fl) = List.drop w.length ch ++ fl :=
      List.drop_append_of_le_length (le_of_lt hlt)
    rcases hd : List.drop w.length ch with _ | ⟨c', rest'⟩
    · have : ch.length - w.length = 0 := by
        rw [← List.length_drop, hd]
        rfl
      omega
    · rw [hdrop, hd] at hnw
      simp only [List.cons_append, noWordHead, Bool.not_eq_true'] at hnw
      have hc' : isWordChar c' = true := by
        have hmem : c' ∈ ch :=
          List.mem_of_mem_drop (by rw [hd]; exact List.mem_cons_self _ _)
        exact List.all_eq_true.mp hcha c' hmem
      rw [hc'] at hnw
      cases hnw
  · exact hne (List.append_inj ht heq.symm).1
  · cases fl with
    | nil =>
      rw [List.append_nil] at hsw
      have := startsWith_length_le hsw
      omega
    | cons c1 fl' =>
      have hc1 : isWordChar c1 = false := by
        rcases hfl with h | h
        · cases h
        · simpa [noWordHead] using h
      have htake : ch ++ [c1] = List.take (ch.length + 1) w := by
        have e1 : List.take (ch.length + 1) (ch ++ c1 :: fl') = ch ++ [c1] := by
          have := @List.take_append _ ch (c1 :: fl') 1
          simpa using this
        have e2 : List.take (ch.length + 1) (w ++ t) = List.take (ch.length + 1) w :=
          List.take_append_of_le_length (by omega)
        rw [← e1, ht, e2]
      have hc1w : isWordChar c1 = true := by
        have hmem : c1 ∈ List.take (ch.length + 1) w := by
          rw [← htake]
          simp
        exact List.all_eq_true.mp hwall c1 (List.mem_of_mem_take hmem)
      rw [hc1w] at hc1
      cases hc1

theorem isSepChunk_elim {l : List Char} (h : isSepChunk l = true) :
    ∃ c, l = [c] ∧ isWordChar c = false := by
  rcases l with _ | ⟨c, _ | ⟨c2, rest⟩⟩
  · cases h
  · exact ⟨c, rfl, by simpa [isSepChunk] using h⟩
  · cases h

theorem getLastD_mem : ∀ (l : List Char) (x : Char), l ≠ [] → l.getLastD x ∈ l := by
  intro l
  induction l with
  | nil => intro x h; exact absurd rfl h
  | cons c cs ih =>
    intro x _
    rw [List.getLastD_cons]
    cases cs with
    | nil => simp [List.getLastD]
    | cons c2 cs2 => exact List.mem_cons_of_mem _ (ih c (by simp))

/-- One `\b`-anchored global replacement acts on a chunked string exactly by
replacing each word run equal to the pattern with the replacement text. -/
theorem replaceWord_chunks (w d : List Char) (hw : w ≠ [])
    (hwall : w.all isWordChar = true) :
    ∀ (L : List (List Char)), Chunked L →
    replaceWord w d L.flatten = (L.map (tokenRepl w d)).flatten := by
  intro L
  induction L with
  | nil => simp [replaceWord, replWordGo]
  | cons ch L' ih =>
    intro hL
    have hL' : Chunked L' :=
      ⟨fun c hc => hL.1 c (List.mem_cons_of_mem _ hc), (List.chain'_cons'.mp hL.2).2⟩
    have hihm := ih hL'
    rcases hL.1 ch (List.mem_cons_self _ _) with hwr | hsep
    · -- word run
      have hcha : ch.all isWordChar = true := by
        simp only [isWordRun, Bool.and_eq_true] at hwr
        exact hwr.2
      have hchne : ch ≠ [] := by
        intro hc
        rw [hc] at hwr
        simp [isWordRun] at hwr
      have headSep : L'.flatten = [] ∨ noWordHead L'.flatten = true := by
        cases L' with
        | nil => left; rfl
        | cons ch1 L'' =>
          right
          have h1 : ¬(isWordRun ch = true ∧ isWordRun ch1 = true) :=
            (List.chain'_cons'.mp hL.2).1 ch1 (by simp)
          have hsep1 : isSepChunk ch1 = true := by
            rcases hL'.1 ch1 (List.mem_cons_self _ _) with hw1 | hs1
            · exact absurd ⟨hwr, hw1⟩ h1
            · exact hs1
          obtain ⟨c1, hc1eq, hc1⟩ := isSepChunk_elim hsep1
          simp [hc1eq, noWordHead, hc1]
      obtain ⟨c0, ch', hch⟩ : ∃ a b, ch = a :: b := by
        cases ch with
        | nil => exact absurd rfl hchne
        | cons a b => exact ⟨a, b, rfl⟩
      subst hch
      by_cases hchw : c0 :: ch' = w
      · -- the run is the pattern: the match fires
        subst hchw
        simp only [List.flatten_cons, List.cons_append, List.map_cons]
        have hcond : (false = false) ∧ (c0 :: ch' ≠ []) ∧
            startsWith (c0 :: (ch' ++ L'.flatten)) (c0 :: ch') = true ∧
            noWordHead (List.drop (c0 :: ch').length
              (c0 :: (ch' ++ L'.flatten))) = true := by
          refine ⟨rfl, by simp, ?_, ?_⟩
          · have := startsWith_append_self (c0 :: ch') L'.flatten
            simpa using this
          · have hdl : List.drop (c0 :: ch').length
                (c0 :: (ch' ++ L'.flatten)) = L'.flatten := by
              have := List.drop_left (c0 :: ch') L'.flatten
              simpa using this
            rw [hdl]
            rcases headSep with h | h
            · rw [h]
              rfl
            · exact h
        have estep : replaceWord (c0 :: ch') d (c0 :: (ch' ++ L'.flatten)) =
            d ++ replWordGo (c0 :: ch') d
              (isWordChar ((c0 :: ch').getLastD c0)) L'.flatten := by
          unfold replaceWord
          rw [replWordGo, if_pos hcond]
          congr 1
          congr 1
          have := List.drop_left (c0 :: ch') L'.flatten
          simpa using this
        rw [estep]
        have hlast : isWordChar ((c0 :: ch').getLastD c0) = true :=
          List.all_eq_true.mp hcha _ (getLastD_mem _ _ (by simp))
        rw [hlast]
        rw [replWordGo_prev_sep (c0 :: ch') d (by simp) hwall L'.flatten headSep]
        rw [show replWordGo (c0 :: ch') d false L'.flatten =
            replaceWord (c0 :: ch') d L'.flatten from rfl, hihm]
        simp [tokenRepl]
      · -- a different word run: copied unchanged
        simp only [List.flatten_cons, List.cons_append, List.map_cons]
        have hnomatch := no_cross_match w (c0 :: ch') L'.flatten hw hwall hwr
          hchw headSep
        have estep : replaceWord w d (c0 :: (ch' ++ L'.flatten)) =
            c0 :: replWordGo w d (isWordChar c0) (ch' ++ L'.flatten) := by
          unfold replaceWord
          rw [replWordGo, if_neg ?hcond]
          case hcond =>
            intro hcon
            refine hnomatch ⟨?_, ?_⟩
            · have := hcon.2.2.1
              simpa using this
            · have := hcon.2.2.2
              simpa using this
        rw [estep]
        simp only [List.all_cons, Bool.and_eq_true] at hcha
        rw [hcha.1]
        rw [replWordGo_copy_run w d ch' L'.flatten hcha.2]
        rw [replWordGo_prev_sep w d hw hwall L'.flatten headSep]
        rw [show replWordGo w d false L'.flatten =
            replaceWord w d L'.flatten from rfl, hihm]
        rw [show tokenRepl w d (c0 :: ch') = c0 :: ch' from by
          simp [tokenRepl, hchw]]
        simp
    · -- separator chunk
      obtain ⟨c, hceq, hcw⟩ := isSepChunk_elim hsep
      rw [hceq]
      simp only [List.flatten_cons, List.singleton_append, List.map_cons]
      have hsepne : tokenRepl w d [c] = [c] := by
        unfold tokenRepl
        rw [if_neg ?hne]
        case hne =>
          intro hc
          rw [← hc] at hwall
          simp only [List.all_cons, Bool.and_eq_true] at hwall
          rw [hwall.1] at hcw
          cases hcw
      have estep : replaceWord w d (c :: L'.flatten) =
          c :: replWordGo w d (isWordChar c) L'.flatten := by
        unfold replaceWord
        rw [replWordGo, if_neg ?hcond2]
        case hcond2 =>
          intro hcon
          have hsw := hcon.2.2.1
          obtain ⟨t, ht⟩ := startsWith_exists hsw
          cases w with
          | nil => exact hcon.2.1 rfl
          | cons wc w' =>
            have hwc : isWordChar wc = true := by
              simp only [List.all_cons, Bool.and_eq_true] at hwall
              exact hwall.1
            simp only [List.cons_append] at ht
            have : c = wc := by
              have := congrArg (fun l => l.headD ' ') ht
              simpa using this
            rw [this, hwc] at hcw
            cases hcw
      rw [estep, hcw]
      rw [show replWordGo w d false L'.flatten =
          replaceWord w d L'.flatten from rfl, hihm]
      rw [hsepne]
      simp

theorem getLastD_append_ne_nil {a b : List Char} (hb : b ≠ []) :
    ∀ (x : Char), (a ++ b).getLastD x = b.getLastD x := by
  induction a with
  | nil => intro x; rfl
  | cons c a' ih =>
    intro x
    rw [List.cons_append, List.getLastD_cons, ih c]
    exact getLastD_of_ne_nil hb c x

theorem word_not_ws {c : Char} (h : isWordChar c = true) : isWsChar c = false := by
  by_contra hcon
  have hws : isWsChar c = true := by
    cases hx : isWsChar c
    · exact absurd hx hcon
    · rfl
  simp only [isWsChar, Bool.or_eq_true, decide_eq_true_eq] at hws
  rcases hws with ((((h1 | h1) | h1) | h1) | h1) | h1 <;>
    (subst h1; simp [isWordChar] at h)

theorem sep_ne_pattern {l w : List Char} (hsep : isSepChunk l = true)
    (hwall : w.all isWordChar = true) : l ≠ w := by
  obtain ⟨c, rfl, hcw⟩ := isSepChunk_elim hsep
  intro hc
  rw [← hc] at hwall
  simp only [List.all_cons, Bool.and_eq_true] at hwall
  rw [hwall.1] at hcw
  cases hcw

theorem foldl_tokenRepl_not_key :
    ∀ (entries : List (List Char × List Char)) (ch : List Char),
    (∀ e ∈ entries, ch ≠ e.1) →
    entries.foldl (fun a wd => tokenRepl wd.1 wd.2 a) ch = ch := by
  intro entries
  induction entries with
  | nil => intro ch _; rfl
  | cons e rest ih =>
    intro ch h
    rw [List.foldl_cons,
      show tokenRepl e.1 e.2 ch = ch from by
        simp [tokenRepl, h e (List.mem_cons_self _ _)]]
    exact ih ch (fun e' he' => h e' (List.mem_cons_of_mem _ he'))

theorem foldl_tokenRepl_value :
    ∀ (entries : List (List Char × List Char)) (ch : List Char),
    (∀ e ∈ entries, ∀ e' ∈ entries, e.2 ≠ e'.1) →
    entries.foldl (fun a wd => tokenRepl wd.1 wd.2 a) ch = ch ∨
    ∃ e ∈ entries, ch = e.1 ∧
      entries.foldl (fun a wd => tokenRepl wd.1 wd.2 a) ch = e.2 := by
  intro entries
  induction entries with
  | nil => intro ch _; left; rfl
  | cons e rest ih =>
    intro ch hvk
    by_cases hc : ch = e.1
    · right
      refine ⟨e, List.mem_cons_self _ _, hc, ?_⟩
      rw [List.foldl_cons, show tokenRepl e.1 e.2 ch = e.2 from by simp [tokenRepl, hc]]
      exact foldl_tokenRepl_not_key rest e.2
        (fun e' he' => hvk e (List.mem_cons_self _ _) e' (List.mem_cons_of_mem _ he'))
    · rw [List.foldl_cons, show tokenRepl e.1 e.2 ch = ch from by simp [tokenRepl, hc]]
      rcases ih ch (fun a ha b hb =>
        hvk a (List.mem_cons_of_mem _ ha) b (List.mem_cons_of_mem _ hb)) with
        h | ⟨e', he', hk', h⟩
      · left
        exact h
      · right
        exact ⟨e', List.mem_cons_of_mem _ he', hk', h⟩

theorem tokenMapAll_idem (ch : List Char) :
    tokenMapAll (tokenMapAll ch) = tokenMapAll ch := by
  have hvk : ∀ e ∈ numberEntries, ∀ e' ∈ numberEntries, e.2 ≠ e'.1 := by decide
  unfold tokenMapAll
  rcases foldl_tokenRepl_value numberEntries ch hvk with h | ⟨e, he, _, h⟩
  · rw [h, h]
  · rw [h]
    exact foldl_tokenRepl_not_key numberEntries e.2
      (fun e' he' => hvk e he e' he')

theorem tokenMapAll_wordRun {ch : List Char} (h : isWordRun ch = true) :
    isWordRun (tokenMapAll ch) = true := by
  have hvk : ∀ e ∈ numberEntries, ∀ e' ∈ numberEntries, e.2 ≠ e'.1 := by decide
  have hvals : ∀ e ∈ numberEntries, isWordRun e.2 = true := by decide
  rcases foldl_tokenRepl_value numberEntries ch hvk with hx | ⟨e, he, _, hx⟩
  · unfold tokenMapAll
    rw [hx]
    exact h
  · unfold tokenMapAll
    rw [hx]
    exact hvals e he

theorem tokenMapAll_sep {ch : List Char} (h : isSepChunk ch = true) :
    tokenMapAll ch = ch := by
  have hkeys : ∀ e ∈ numberEntries, e.1.all isWordChar = true := by decide
  exact foldl_tokenRepl_not_key numberEntries ch
    (fun e he => sep_ne_pattern h (hkeys e he))

theorem isWordRun_of_tokenRepl {w d ch : List Char} (hw : w ≠ [])
    (hwall : w.all isWordChar = true)
    (h : isWordRun (tokenRepl w d ch) = true) : isWordRun ch = true := by
  unfold tokenRepl at h
  split at h
  · rename_i hc
    rw [hc]
    simp only [isWordRun, Bool.and_eq_true]
    refine ⟨?_, hwall⟩
    simpa using hw
  · exact h

/-- One whole-word replacement keeps the chunk list well formed. -/
theorem chunked_map_tokenRepl (w d : List Char) (hw : w ≠ [])
    (hwall : w.all isWordChar = true) (hd : d ≠ [])
    (hdall : d.all isWordChar = true) (L : List (List Char)) (hL : Chunked L) :
    Chunked (L.map (tokenRepl w d)) := by
  constructor
  · intro ch hch
    obtain ⟨ch0, hch0, rfl⟩ := List.mem_map.mp hch
    rcases hL.1 ch0 hch0 with hwr | hsep
    · left
      unfold tokenRepl
      split
      · simp only [isWordRun, Bool.and_eq_true]
        refine ⟨?_, hdall⟩
        simpa using hd
      · exact hwr
    · right
      rw [show tokenRepl w d ch0 = ch0 from by
        simp [tokenRepl, sep_ne_pattern hsep hwall]]
      exact hsep
  · rw [List.chain'_map]
    refine List.Chain'.imp ?_ hL.2
    intro a b hab hcon
    exact hab ⟨isWordRun_of_tokenRepl hw hwall hcon.1,
      isWordRun_of_tokenRepl hw hwall hcon.2⟩

/-- The full replacement chain acts on a chunked string chunk by chunk. -/
theorem fold_replace_chunks :
    ∀ (entries : List (List Char × List Char)) (L : List (List Char)),
    (∀ e ∈ entries, e.1 ≠ [] ∧ e.1.all isWordChar = true ∧ e.2 ≠ [] ∧
      e.2.all isWordChar = true) →
    Chunked L →
    entries.foldl (fun acc wd => replaceWord wd.1 wd.2 acc) L.flatten =
      (L.map (fun ch =>
        entries.foldl (fun a wd => tokenRepl wd.1 wd.2 a) ch)).flatten := by
  intro entries
  induction entries with
  | nil =>
    intro L _ _
    simp
  | cons e rest ih =>
    intro L hent hL
    have he := hent e (List.mem_cons_self _ _)
    simp only [List.foldl_cons]
    rw [replaceWord_chunks e.1 e.2 he.1 he.2.1 L hL]
    rw [ih (L.map (tokenRepl e.1 e.2))
      (fun e' he' => hent e' (List.mem_cons_of_mem _ he'))
      (chunked_map_tokenRepl e.1 e.2 he.1 he.2.1 he.2.2.1 he.2.2.2 L hL)]
    rw [List.map_map]
    rfl

theorem map_self_of_fixed {l : List Char} {f : Char → Char}
    (h : ∀ c ∈ l, f c = c) : l.map f = l := by
  induction l with
  | nil => rfl
  | cons c cs ih =>
    rw [List.map_cons, h c (List.mem_cons_self _ _),
      ih (fun c' hc' => h c' (List.mem_cons_of_mem _ hc'))]

theorem jsLowerChar_idem (c : Char) : jsLowerChar (jsLowerChar c) = jsLowerChar c := by
  by_cases h : 65 ≤ c.toNat ∧ c.toNat ≤ 90
  · have e1 : jsLowerChar c = Char.ofNat (c.toNat + 32) := by
      unfold jsLowerChar
      rw [if_pos h]
    have hval : (Char.ofNat (c.toNat + 32)).toNat = c.toNat + 32 := by
      have hb : ∀ n, n < 123 → 97 ≤ n → (Char.ofNat n).toNat = n := by decide
      exact hb _ (by omega) (by omega)
    rw [e1]
    unfold jsLowerChar
    rw [if_neg (by rw [hval]; omega)]
  · have e1 : jsLowerChar c = c := by
      unfold jsLowerChar
      rw [if_neg h]
    rw [e1]
    exact e1

theorem trimChars_subset {c : Char} {u : List Char} (h : c ∈ trimChars u) : c ∈ u := by
  unfold trimChars at h
  rw [List.mem_reverse] at h
  have h2 := (List.dropWhile_sublist isWsChar).subset h
  rw [List.mem_reverse] at h2
  exact (List.dropWhile_sublist isWsChar).subset h2

theorem trim_self_parts {u : List Char} (h : trimChars u = u) :
    List.dropWhile isWsChar u = u ∧
    List.dropWhile isWsChar u.reverse = u.reverse := by
  have hlen : (trimChars u).length = u.length := by rw [h]
  have s1 := (List.dropWhile_sublist (l := u) isWsChar).length_le
  have s2 := (List.dropWhile_sublist
    (l := (List.dropWhile isWsChar u).reverse) isWsChar).length_le
  unfold trimChars at hlen
  rw [List.length_reverse] at hlen
  rw [List.length_reverse] at s2
  have h1 : List.dropWhile isWsChar u = u :=
    (List.dropWhile_sublist _).eq_of_length (by omega)
  refine ⟨h1, ?_⟩
  rw [h1] at hlen
  refine (List.dropWhile_sublist _).eq_of_length ?_
  rw [List.length_reverse]
  omega

theorem trim_self_head {u : List Char} (h : trimChars u = u) {c : Char}
    {rest : List Char} (hu : u = c :: rest) : isWsChar c = false := by
  have h1 := (trim_self_parts h).1
  rw [hu, List.dropWhile_cons] at h1
  by_contra hcon
  have hws : isWsChar c = true := by
    cases hx : isWsChar c
    · exact absurd hx hcon
    · rfl
  rw [if_pos hws] at h1
  have hlen := congrArg List.length h1
  have hle := (List.dropWhile_sublist (l := rest) isWsChar).length_le
  simp only [List.length_cons] at hlen
  omega

theorem trim_self_last {u : List Char} (h : trimChars u = u) {c : Char}
    {pre : List Char} (hu : u = pre ++ [c]) : isWsChar c = false := by
  have h2 := (trim_self_parts h).2
  rw [hu, List.reverse_append, List.reverse_singleton, List.singleton_append,
    List.dropWhile_cons] at h2
  by_contra hcon
  have hws : isWsChar c = true := by
    cases hx : isWsChar c
    · exact absurd hx hcon
    · rfl
  rw [if_pos hws] at h2
  have hlen := congrArg List.length h2
  have hle := (List.dropWhile_sublist (l := pre.reverse) isWsChar).length_le
  simp only [List.length_cons] at hlen
  omega

theorem trim_eq_self {u : List Char}
    (hhead : ∀ c rest, u = c :: rest → isWsChar c = false)
    (hlast : ∀ c pre, u = pre ++ [c] → isWsChar c = false) :
    trimChars u = u := by
  rcases hu : u with _ | ⟨c, rest⟩
  · rfl
  · have hc := hhead c rest hu
    unfold trimChars
    rw [List.dropWhile_cons, if_neg (by simp [hc])]
    rcases List.eq_nil_or_concat (c :: rest) with hnil | ⟨pre, b, hconc⟩
    · simp at hnil
    · have hceq : c :: rest = pre ++ [b] := by
        simpa [List.concat_eq_append] using hconc
      have hb := hlast b pre (by rw [hu, hceq])
      rw [hceq, List.reverse_append, List.reverse_singleton, List.singleton_append,
        List.dropWhile_cons, if_neg (by simp [hb]), List.reverse_cons,
        List.reverse_reverse]

theorem getLastD_reverse (l : List Char) (d : Char) :
    l.reverse.getLastD d = l.headD d := by
  cases l with
  | nil => rfl
  | cons a l' => rw [List.reverse_cons, List.getLastD_concat, List.headD_cons]

theorem trim_head_not_ws {u : List Char} {c : Char} {rest : List Char}
    (h : trimChars u = c :: rest) : isWsChar c = false := by
  unfold trimChars at h
  have hR : List.dropWhile isWsChar (List.dropWhile isWsChar u).reverse =
      rest.reverse ++ [c] := by
    have := congrArg List.reverse h
    simpa using this
  have hRne : List.dropWhile isWsChar (List.dropWhile isWsChar u).reverse ≠ [] := by
    rw [hR]
    simp
  obtain ⟨t, ht⟩ := List.dropWhile_suffix
    (l := (List.dropWhile isWsChar u).reverse) isWsChar
  have hlast1 : (List.dropWhile isWsChar u).reverse.getLastD ' ' = c := by
    rw [← ht, getLastD_append_ne_nil hRne, hR, List.getLastD_concat]
  rw [getLastD_reverse] at hlast1
  rcases hV : List.dropWhile isWsChar u with _ | ⟨c', V'⟩
  · rw [hV] at hlast1
    rw [hV] at hR
    simp at hR
  · rw [hV] at hlast1
    simp only [List.headD_cons] at hlast1
    rw [← hlast1]
    exact dropWhile_head_false isWsChar u c' V' hV

theorem trim_last_not_ws {u : List Char} {c : Char} {pre : List Char}
    (h : trimChars u = pre ++ [c]) : isWsChar c = false := by
  unfold trimChars at h
  have hR : List.dropWhile isWsChar (List.dropWhile isWsChar u).reverse =
      c :: pre.reverse := by
    have := congrArg List.reverse h
    simpa using this
  exact dropWhile_head_false isWsChar _ c pre.reverse hR

theorem trimChars_idem (u : List Char) : trimChars (trimChars u) = trimChars u := by
  refine trim_eq_self ?_ ?_
  · intro c rest hu
    exact trim_head_not_ws hu
  · intro c pre hu
    exact trim_last_not_ws hu

theorem isWordRun_of_tokenMapAll {ch : List Char}
    (h : isWordRun (tokenMapAll ch) = true) : isWordRun ch = true := by
  have hvk : ∀ e ∈ numberEntries, ∀ e' ∈ numberEntries, e.2 ≠ e'.1 := by decide
  have hkeysrun : ∀ e ∈ numberEntries, isWordRun e.1 = true := by decide
  rcases foldl_tokenRepl_value numberEntries ch hvk with hx | ⟨e, he, hk, _⟩
  · unfold tokenMapAll at h
    rw [hx] at h
    exact h
  · rw [hk]
    exact hkeysrun e he


/-- On an already lower-cased string, the spoken-number fold acts as the
per-chunk token map on the chunk decomposition. -/
theorem convert_chunks_eq {z : List Char} (hzlow : ∀ c ∈ z, jsLowerChar c = c) :
    convertSpokenNumbersList z = ((chunks z).map tokenMapAll).flatten := by
  have hent : ∀ e ∈ numberEntries, e.1 ≠ [] ∧ e.1.all isWordChar = true ∧
      e.2 ≠ [] ∧ e.2.all isWordChar = true := by decide
  unfold convertSpokenNumbersList
  simp only [jsLower]
  rw [map_self_of_fixed hzlow]
  conv_lhs => rw [← chunks_flatten z]
  exact fold_replace_chunks numberEntries (chunks z) hent (chunks_chunked z)

/-- The spoken-number fold keeps an already lower-cased string lower-cased. -/
theorem convert_lower {z : List Char} (hzlow : ∀ c ∈ z, jsLowerChar c = c) :
    ∀ c ∈ convertSpokenNumbersList z, jsLowerChar c = c := by
  have hvk : ∀ e ∈ numberEntries, ∀ e' ∈ numberEntries, e.2 ≠ e'.1 := by decide
  have hvalchars : ∀ e' ∈ numberEntries, ∀ c' ∈ e'.2, jsLowerChar c' = c' := by
    decide
  intro c hc
  rw [convert_chunks_eq hzlow] at hc
  obtain ⟨ch, hch, hcch⟩ := List.mem_flatten.mp hc
  obtain ⟨ch0, hch0, rfl⟩ := List.mem_map.mp hch
  rcases foldl_tokenRepl_value numberEntries ch0 hvk with hcase | ⟨e, he, _, hcase⟩
  · rw [show tokenMapAll ch0 = ch0 from hcase] at hcch
    refine hzlow c ?_
    rw [← chunks_flatten z]
    exact List.mem_flatten.mpr ⟨ch0, hch0, hcch⟩
  · rw [show tokenMapAll ch0 = e.2 from hcase] at hcch
    exact hvalchars e he c hcch

/-- Mapping the token replacement over a chunk decomposition yields another
chunk decomposition. -/
theorem chunked_tokenMapAll (z : List Char) :
    Chunked ((chunks z).map tokenMapAll) := by
  have hLc := chunks_chunked z
  constructor
  · intro ch hch
    obtain ⟨ch0, hch0, rfl⟩ := List.mem_map.mp hch
    rcases hLc.1 ch0 hch0 with hw | hs
    · left
      exact tokenMapAll_wordRun hw
    · right
      rw [tokenMapAll_sep hs]
      exact hs
  · rw [List.chain'_map]
    refine List.Chain'.imp ?_ hLc.2
    intro a b hab hcon
    exact hab ⟨isWordRun_of_tokenMapAll hcon.1, isWordRun_of_tokenMapAll hcon.2⟩

set_option maxHeartbeats 8000000 in
/-- The spoken-number fold keeps an already lower-cased, already trimmed
string trimmed. -/
theorem convert_trim {z : List Char} (hzlow : ∀ c ∈ z, jsLowerChar c = c)
    (hztrim : trimChars z = z) :
    trimChars (convertSpokenNumbersList z) = convertSpokenNumbersList z := by
  have hLc := chunks_chunked z
  have hflat := chunks_flatten z
  rw [convert_chunks_eq hzlow]
  refine trim_eq_self ?_ ?_
  · intro c rest hy
    cases hL0 : chunks z with
    | nil =>
      rw [hL0] at hy
      simp at hy
    | cons ch0 L' =>
      rw [hL0] at hy
      simp only [List.map_cons, List.flatten_cons] at hy
      rcases hLc.1 ch0 (by rw [hL0]; exact List.mem_cons_self _ _) with hw0 | hs0
      · have hgw := tokenMapAll_wordRun hw0
        rcases hg : tokenMapAll ch0 with _ | ⟨c1, t1⟩
        · rw [hg] at hgw
          simp [isWordRun] at hgw
        · rw [hg] at hy
          simp only [List.cons_append] at hy
          injection hy with h1 _
          have hc1w : isWordChar c1 = true := by
            rw [hg] at hgw
            simp only [isWordRun, List.all_cons, Bool.and_eq_true] at hgw
            exact hgw.2.1
          rw [← h1]
          exact word_not_ws hc1w
      · obtain ⟨c0, hc0eq, _⟩ := isSepChunk_elim hs0
        rw [tokenMapAll_sep hs0, hc0eq] at hy
        simp only [List.singleton_append] at hy
        injection hy with h1 _
        have hzeq : z = c0 :: L'.flatten := by
          conv_lhs => rw [← hflat, hL0, hc0eq]
          simp
        rw [← h1]
        exact trim_self_head hztrim hzeq
  · intro c pre hy
    rcases List.eq_nil_or_concat (chunks z) with hL0 | ⟨L0, chN, hL0⟩
    · rw [hL0] at hy
      simp at hy
    · rw [List.concat_eq_append] at hL0
      rw [hL0] at hy
      simp only [List.map_append, List.map_cons, List.map_nil,
        List.flatten_append, List.flatten_cons, List.flatten_nil,
        List.append_nil] at hy
      have hclast : ((L0.map tokenMapAll).flatten ++ tokenMapAll chN).getLastD ' '
          = c := by
        rw [hy, List.getLastD_concat]
      have hchNmem : chN ∈ chunks z := by
        rw [hL0]
        exact List.mem_append_right _ (List.mem_cons_self _ _)
      rcases hLc.1 chN hchNmem with hwN | hsN
      · have hgw := tokenMapAll_wordRun hwN
        have hgne : tokenMapAll chN ≠ [] := by
          intro hcon
          rw [hcon] at hgw
          simp [isWordRun] at hgw
        rw [getLastD_append_ne_nil hgne] at hclast
        have hcmem : c ∈ tokenMapAll chN := by
          rw [← hclast]
          exact getLastD_mem _ _ hgne
        have hcw : isWordChar c = true := by
          simp only [isWordRun, Bool.and_eq_true] at hgw
          exact List.all_eq_true.mp hgw.2 c hcmem
        exact word_not_ws hcw
      · obtain ⟨cN, hcNeq, _⟩ := isSepChunk_elim hsN
        rw [tokenMapAll_sep hsN, hcNeq] at hclast
        rw [getLastD_append_ne_nil (by simp)] at hclast
        simp only [List.getLastD_cons, List.getLastD_nil] at hclast
        have hzeq : z = L0.flatten ++ [cN] := by
          conv_lhs => rw [← hflat, hL0, hcNeq]
          simp
        rw [← hclast]
        exact trim_self_last hztrim hzeq

set_option maxHeartbeats 1000000 in
/-- Running the spoken-number fold twice on an already lower-cased string is
the same as running it once. -/
theorem convert_idem_aux {z : List Char}
    (hzlow : ∀ c ∈ z, jsLowerChar c = c) :
    convertSpokenNumbersList (convertSpokenNumbersList z) =
      convertSpokenNumbersList z := by
  have hent : ∀ e ∈ numberEntries, e.1 ≠ [] ∧ e.1.all isWordChar = true ∧
      e.2 ≠ [] ∧ e.2.all isWordChar = true := by decide
  have hylow := convert_lower hzlow
  rw [convert_chunks_eq hzlow]
  unfold convertSpokenNumbersList
  simp only [jsLower]
  rw [map_self_of_fixed (fun c hc =>
    hylow c (by rw [convert_chunks_eq hzlow]; exact hc))]
  rw [fold_replace_chunks numberEntries ((chunks z).map tokenMapAll) hent
    (chunked_tokenMapAll z)]
  have htm : (fun ch => numberEntries.foldl
      (fun a wd => tokenRepl wd.1 wd.2 a) ch) = tokenMapAll := rfl
  rw [htm]
  refine congrArg List.flatten ?_
  have hmapidem : ∀ (L : List (List Char)),
      (L.map tokenMapAll).map tokenMapAll = L.map tokenMapAll := by
    intro L
    induction L with
    | nil => rfl
    | cons a t ih =>
      simp only [List.map_cons]
      rw [tokenMapAll_idem, ih]
  exact hmapidem (chunks z)

set_option maxHeartbeats 1000000 in
/-- C9. The transcript normalizer (lowercase, then trim, then replace each
whole-word spoken number zero..ten by its digit) is idempotent: normalizing
an already normalized string changes nothing. Purity is inherent in the
embedding: normalizeTranscript is a function of its input alone. -/
theorem c9_normalize_idempotent (x : String) :
    normalizeTranscript (normalizeTranscript x) = normalizeTranscript x := by
  have hzlow : ∀ c ∈ trimChars (jsLower x.data), jsLowerChar c = c := by
    intro c hc
    have hc2 : c ∈ jsLower x.data := trimChars_subset hc
    obtain ⟨c0, _, rfl⟩ := List.mem_map.mp hc2
    exact jsLowerChar_idem c0
  have hztrim := trimChars_idem (jsLower x.data)
  have hylow := convert_lower hzlow
  have hytrim := convert_trim hzlow hztrim
  unfold normalizeTranscript
  refine congrArg String.mk ?_
  show convertSpokenNumbersList
      (trimChars (jsLower (convertSpokenNumbersList (trimChars (jsLower x.data)))))
    = convertSpokenNumbersList (trimChars (jsLower x.data))
  have hlowfix : jsLower (convertSpokenNumbersList (trimChars (jsLower x.data)))
      = convertSpokenNumbersList (trimChars (jsLower x.data)) := by
    simp only [jsLower]
    exact map_self_of_fixed hylow
  rw [hlowfix, hytrim]
  exact convert_idem_aux hzlow
